import Mathlib

set_option autoImplicit false
set_option maxHeartbeats 1000000

deriving instance DecidableEq for Except

/- Verification of the LoongBuns prototype distributed executor.

   This file is a shallow embedding, in Lean 4, of the parts of the Rust
   sources that the verified properties talk about:

   * the wire codec of src/protocol/src/lib.rs (namespace Protocol);
   * the worker module cache of src/program/src/session/cache.rs, the chunk
     assembler of src/program/src/session/transfer.rs and the session state
     machine of src/program/src/session/mod.rs (namespace Program);
   * the task scheduler candidate selection and the transfer finalisation of
     src/server/src/systems/task.rs (namespace Server).

   Bytes are modelled as natural numbers below 256 and 32-bit machine words
   as natural numbers below 2^32; wherever a Rust integer cast can truncate,
   the model keeps the corresponding explicit `% 2 ^ w` reduction.  Rust
   floating point values are carried by the codec purely as transmuted bit
   patterns, so `f32`/`f64` payloads are modelled by their 32-bit word bit
   patterns.  A Rust operation that can panic (out of range slice indexing)
   is modelled by a dedicated `crash` outcome, distinct from the `Err`
   results of the fallible functions. -/

namespace Protocol

/-- Typed ABI value (`protocol::Type`).  Each constructor carries the 32-bit
words of the bit pattern that `Type::encode` produces by transmuting the
underlying machine value, in the order the Rust code emits them. -/
inductive Ty where
  | void
  | i32 (w : Nat)
  | i64 (w0 w1 : Nat)
  | f32 (w : Nat)
  | f64 (w0 w1 : Nat)
  | v128 (w0 w1 w2 w3 : Nat)
  deriving DecidableEq, Repr

/-- Word list produced by `Type::encode`. -/
def Ty.encode : Ty → List Nat
  | .void => []
  | .i32 w => [w]
  | .i64 w0 w1 => [w0, w1]
  | .f32 w => [w]
  | .f64 w0 w1 => [w0, w1]
  | .v128 w0 w1 w2 w3 => [w0, w1, w2, w3]

/-- Variant tag written by `serialize_types`. -/
def Ty.tag : Ty → Nat
  | .void => 0
  | .i32 _ => 1
  | .i64 _ _ => 2
  | .f32 _ => 3
  | .f64 _ _ => 4
  | .v128 _ _ _ _ => 5

/-- Well-formedness of a typed value: every stored word is a 32-bit value,
as guaranteed by the `u32` type on the Rust side. -/
def Ty.wf : Ty → Prop
  | .void => True
  | .i32 w => w < 2 ^ 32
  | .i64 w0 w1 => w0 < 2 ^ 32 ∧ w1 < 2 ^ 32
  | .f32 w => w < 2 ^ 32
  | .f64 w0 w1 => w0 < 2 ^ 32 ∧ w1 < 2 ^ 32
  | .v128 w0 w1 w2 w3 => w0 < 2 ^ 32 ∧ w1 < 2 ^ 32 ∧ w2 < 2 ^ 32 ∧ w3 < 2 ^ 32

instance (v : Ty) : Decidable v.wf := by
  cases v <;> simp [Ty.wf] <;> infer_instance

/-- Big-endian bytes of a 16-bit value (`u16::to_be_bytes`). -/
def beBytes2 (n : Nat) : List Nat := [n / 2 ^ 8 % 256, n % 256]

/-- Big-endian bytes of a 32-bit value (`u32::to_be_bytes`). -/
def beBytes4 (n : Nat) : List Nat :=
  [n / 2 ^ 24 % 256, n / 2 ^ 16 % 256, n / 2 ^ 8 % 256, n % 256]

/-- Big-endian bytes of a 64-bit value (`u64::to_be_bytes`). -/
def beBytes8 (n : Nat) : List Nat :=
  [n / 2 ^ 56 % 256, n / 2 ^ 48 % 256, n / 2 ^ 40 % 256, n / 2 ^ 32 % 256,
   n / 2 ^ 24 % 256, n / 2 ^ 16 % 256, n / 2 ^ 8 % 256, n % 256]

/-- Big-endian reading of a byte list (`uNN::from_be_bytes`). -/
def readBe (bs : List Nat) : Nat := bs.foldl (fun a b => a * 256 + b) 0

/-- Bytes contributed to `serialize_types` by a single value: variant tag,
word count (cast to `u8`), then the big-endian bytes of each word. -/
def serializeOne (v : Ty) : List Nat :=
  v.tag :: (v.encode.length % 256) :: (v.encode.map beBytes4).flatten

/-- Embedding of `serialize_types`: 16-bit big-endian count (the Rust
`values.len() as u16` cast truncates), then the per-value encodings. -/
def serialize_types (values : List Ty) : List Nat :=
  beBytes2 (values.length % 2 ^ 16) ++ (values.map serializeOne).flatten

/-- Reads `n` big-endian 32-bit words from a byte list, four bytes each,
as the word-collection loop of `deserialize_types` does. -/
def chunkWords : Nat → List Nat → List Nat
  | 0, _ => []
  | n + 1, bs => readBe (bs.take 4) :: chunkWords n (bs.drop 4)

/-- Outcome of dispatching one tag in `deserialize_types`: a decoded value,
a skipped unknown tag (the `_ => continue` arm) or a panic.  The Rust
`decode_to_*` helpers index into the word vector without a bounds check, so
a declared word count smaller than the variant needs is a panic. -/
inductive TagOut where
  | val (v : Ty)
  | skip
  | crash
  deriving DecidableEq, Repr

/-- Tag dispatch of `deserialize_types` (the `match tag` block together with
the partial `decode_to_*` helpers). -/
def decodeTag (tag : Nat) (ws : List Nat) : TagOut :=
  match tag, ws with
  | 0, _ => .val .void
  | 1, w :: _ => .val (.i32 w)
  | 1, _ => .crash
  | 2, w0 :: w1 :: _ => .val (.i64 w0 w1)
  | 2, _ => .crash
  | 3, w :: _ => .val (.f32 w)
  | 3, _ => .crash
  | 4, w0 :: w1 :: _ => .val (.f64 w0 w1)
  | 4, _ => .crash
  | 5, w0 :: w1 :: w2 :: w3 :: _ => .val (.v128 w0 w1 w2 w3)
  | 5, _ => .crash
  | _, _ => .skip

/-- Value-reading loop of `deserialize_types`.  The first argument is the
remaining iteration count, the second the not yet consumed input bytes; the
Rust loop only ever reads at the current offset and moves forward, so
consuming a list is an exact model of the offset arithmetic.  `none` marks a
panic inside a `decode_to_*` helper; every `break` of the Rust loop returns
the values collected so far. -/
def deserialize_typesAux : Nat → List Nat → Option (List Ty)
  | 0, _ => some []
  | _ + 1, [] => some []
  | _ + 1, [_] => some []
  | count + 1, tag :: lenB :: rest =>
    if lenB * 4 ≤ rest.length then
      match decodeTag tag (chunkWords lenB rest) with
      | .val v => (deserialize_typesAux count (rest.drop (lenB * 4))).map (v :: ·)
      | .skip => deserialize_typesAux count (rest.drop (lenB * 4))
      | .crash => none
    else some []

/-- Embedding of `deserialize_types`: reads the 16-bit count, then runs the
value loop; inputs of fewer than two bytes yield the empty list. -/
def deserialize_types (data : List Nat) : Option (List Ty) :=
  match data with
  | b0 :: b1 :: rest => deserialize_typesAux (b0 * 256 + b1) rest
  | _ => some []

/-- Message set of the codec (`protocol::Message`). -/
inductive Msg where
  | clientReady
  | serverTask (task_id : Nat) (binary : List Nat) (params : List Ty)
  | clientResult (task_id : Nat) (result : List Ty)
  | serverAck (task_id : Nat) (success : Bool)
  deriving DecidableEq, Repr

/-- Wire tag of each message variant. -/
def Msg.msgType : Msg → Nat
  | .clientReady => 1
  | .serverTask .. => 2
  | .clientResult .. => 3
  | .serverAck .. => 4

/-- Payload built by `Message::serialize` for each variant.  The length of
the binary is written through a `u32` cast. -/
def Msg.payload : Msg → List Nat
  | .clientReady => []
  | .serverTask id bin ps =>
      beBytes8 id ++ beBytes4 (bin.length % 2 ^ 32) ++ bin ++ serialize_types ps
  | .clientResult id rs => beBytes8 id ++ serialize_types rs
  | .serverAck id succ => beBytes8 id ++ [if succ then 1 else 0]

/-- Embedding of `Message::serialize`: variant byte, 16-bit big-endian
payload length (the `payload.len() as u16` cast truncates), payload. -/
def Msg.serialize (m : Msg) : List Nat :=
  m.msgType :: (beBytes2 (m.payload.length % 2 ^ 16) ++ m.payload)

/-- Protocol error set (`protocol::Error`). -/
inductive PError where
  | invalidMessageType (t : Nat)
  | insufficientData
  deriving DecidableEq, Repr

/-- Outcome of `Message::deserialize`: a decoded message, a protocol error,
or a panic caused by out-of-range slice indexing. -/
inductive DesOut where
  | ok (m : Msg)
  | err (e : PError)
  | crash
  deriving DecidableEq, Repr

/-- Number of bytes of the frame that `Message::deserialize` reads, and that
a framing caller consequently consumes: the three header bytes plus the
declared payload length. -/
def frameLen (data : List Nat) : Nat := 3 + readBe ((data.drop 1).take 2)

/-- Per-variant payload parsing of `Message::deserialize` (the `match
msg_type` block).  For the `ServerTask` variant the Rust code slices
`payload[12 .. 12 + binary_len]` without checking the upper bound first, so
an embedded binary length running past the payload is a crash. -/
def Msg.deserializeBody (msg_type : Nat) (payload : List Nat) : DesOut :=
  match msg_type with
  | 1 => .ok .clientReady
  | 2 =>
    if payload.length < 12 then .err .insufficientData
    else
      let task_id := readBe (payload.take 8)
      let binary_len := readBe ((payload.drop 8).take 4)
      if payload.length < 12 + binary_len then .crash
      else
        let binary := (payload.drop 12).take binary_len
        match deserialize_types (payload.drop (12 + binary_len)) with
        | some params => .ok (.serverTask task_id binary params)
        | none => .crash
  | 3 =>
    if payload.length < 10 then .err .insufficientData
    else
      let task_id := readBe (payload.take 8)
      match deserialize_types (payload.drop 8) with
      | some result => .ok (.clientResult task_id result)
      | none => .crash
  | 4 =>
    if payload.length < 9 then .err .insufficientData
    else
      let task_id := readBe (payload.take 8)
      .ok (.serverAck task_id (payload.getD 8 0 != 0))
  | t => .err (.invalidMessageType t)

/-- Embedding of `Message::deserialize`.  The Rust code slices
`data[3 .. 3 + payload_len]` without checking the upper bound first, so a
declared payload length running past the available bytes is a crash. -/
def Msg.deserialize (data : List Nat) : DesOut :=
  if data.length < 3 then .err .insufficientData
  else
    let payload_len := readBe ((data.drop 1).take 2)
    if data.length < 3 + payload_len then .crash
    else Msg.deserializeBody (data.headD 0) ((data.drop 3).take payload_len)

/-- Validity of a message: the task id is a 64-bit value, the parameter
count fits the 16-bit count field, every typed value is well-formed and the
whole payload length fits the 16-bit frame length field. -/
def Msg.wf : Msg → Prop
  | .clientReady => True
  | .serverTask id bin ps =>
      id < 2 ^ 64 ∧ ps.length < 2 ^ 16 ∧ (∀ v ∈ ps, v.wf) ∧
      12 + bin.length + (serialize_types ps).length < 2 ^ 16
  | .clientResult id rs =>
      id < 2 ^ 64 ∧ rs.length < 2 ^ 16 ∧ (∀ v ∈ rs, v.wf) ∧
      8 + (serialize_types rs).length < 2 ^ 16
  | .serverAck id _ => id < 2 ^ 64

instance (m : Msg) : Decidable m.wf := by
  cases m <;> simp [Msg.wf] <;> infer_instance

end Protocol

namespace Program

open Protocol

/-- Error set of the worker crate (`program::Error`).  Variants that carry
only diagnostic strings keep their payloads. -/
inductive PgError where
  | protocolErr
  | transport (msg : String)
  | execution (msg : String)
  | invalidChunkIndex (i n : Nat)
  | duplicateChunk (i : Nat)
  | invalidChunkSize (expected got : Nat)
  | taskNotFound (id : Nat)
  | cacheEntryNotFound (key : String)
  | cacheFull (allocated capacity : Nat)
  deriving DecidableEq, Repr

/-- Cache slot (`session::cache::CacheEntry`): raw bytes and usage count. -/
structure CacheEntry where
  data : List Nat
  access : Nat
  deriving DecidableEq, Repr

/-- First entry of an association list with the given key, as
`BTreeMap::get` sees it (keys are unique in reachable states). -/
def lookupE : List (String × CacheEntry) → String → Option CacheEntry
  | [], _ => none
  | p :: l, k => if p.1 = k then some p.2 else lookupE l k

/-- Removal of the entry with the given key (`BTreeMap::remove`). -/
def eraseE : List (String × CacheEntry) → String → List (String × CacheEntry)
  | [], _ => []
  | p :: l, k => if p.1 = k then l else p :: eraseE l k

/-- In-place update of the entry with the given key, as the Rust code does
through `get_mut`. -/
def updateE (f : CacheEntry → CacheEntry) :
    List (String × CacheEntry) → String → List (String × CacheEntry)
  | [], _ => []
  | p :: l, k => if p.1 = k then (p.1, f p.2) :: l else p :: updateE f l k

/-- Key-ordered insertion (`BTreeMap::insert` on an absent key). -/
def insertE : List (String × CacheEntry) → String → CacheEntry →
    List (String × CacheEntry)
  | [], k, e => [(k, e)]
  | p :: l, k, e => if k ≤ p.1 then (k, e) :: p :: l else p :: insertE l k e

/-- Total number of bytes held by the entries. -/
def sizeSum (l : List (String × CacheEntry)) : Nat :=
  (l.map (fun p => p.2.data.length)).sum

/-- Worker module cache (`session::cache::ModuleCache`).  The entry list is
kept in the ascending key order of the `BTreeMap`. -/
structure ModuleCache where
  entries : List (String × CacheEntry)
  capacity : Nat
  allocated : Nat
  deriving DecidableEq, Repr

/-- Embedding of `ModuleCache::new`. -/
def ModuleCache.new (capacity : Nat) : ModuleCache := ⟨[], capacity, 0⟩

/-- Embedding of `ModuleCache::contains_key`. -/
def ModuleCache.contains_key (c : ModuleCache) (k : String) : Bool :=
  (lookupE c.entries k).isSome

/-- Embedding of `ModuleCache::get`: bumps the access counter of the entry
and returns its bytes. -/
def ModuleCache.get (c : ModuleCache) (k : String) :
    Option (List Nat) × ModuleCache :=
  match lookupE c.entries k with
  | some e =>
      (some e.data,
       { c with entries := updateE (fun e0 => { e0 with access := e0.access + 1 }) c.entries k })
  | none => (none, c)

/-- One `min_by` step of the eviction scan in `ModuleCache::put`.  The Rust
comparator compares `a.access^2 * b.size` against `b.access^2 * a.size`
and `Iterator::min_by` keeps the first minimal element, so the accumulator
is replaced exactly when it compares strictly greater than the new entry. -/
def victimStep (acc : Option (String × CacheEntry)) (p : String × CacheEntry) :
    Option (String × CacheEntry) :=
  match acc with
  | none => some p
  | some q =>
      if q.2.access ^ 2 * p.2.data.length > p.2.access ^ 2 * q.2.data.length
      then some p else some q

/-- Victim key chosen by the eviction scan of `ModuleCache::put`. -/
def selectVictim (l : List (String × CacheEntry)) : Option String :=
  (l.foldl victimStep none).map (fun p => p.1)

/-- Eviction loop of `ModuleCache::put` (`while capacity - allocated < size`),
written with an explicit iteration budget.  Each pass either removes the
selected victim or exits when no victim exists, so a budget equal to the
number of entries is enough (theorem `evictLoop_iterations_bounded`). -/
def evictLoop : Nat → Nat → Nat → List (String × CacheEntry) → Nat →
    List (String × CacheEntry) × Nat
  | 0, _, _, es, alloc => (es, alloc)
  | fuel + 1, cap, size, es, alloc =>
    if cap - alloc < size then
      match selectVictim es with
      | some k =>
        match lookupE es k with
        | some e => evictLoop fuel cap size (eraseE es k) (alloc - e.data.length)
        | none => (es, alloc)
      | none => (es, alloc)
    else (es, alloc)

/-- Embedding of `ModuleCache::put`: drop an existing entry with the same
key, evict until the requested size fits, then insert a zero-filled slot of
exactly that size, or fail with `CacheFull`. -/
def ModuleCache.put (c : ModuleCache) (k : String) (size : Nat) :
    Except PgError Nat × ModuleCache :=
  let st0 :=
    match lookupE c.entries k with
    | some e => (eraseE c.entries k, c.allocated - e.data.length)
    | none => (c.entries, c.allocated)
  let st1 := evictLoop st0.1.length c.capacity size st0.1 st0.2
  if size ≤ c.capacity - st1.2 then
    (Except.ok size,
     { c with entries := insertE st1.1 k ⟨List.replicate size 0, 1⟩,
              allocated := st1.2 + size })
  else
    (Except.error (.cacheFull st1.2 c.capacity),
     { c with entries := st1.1, allocated := st1.2 })

/-- Overwrite of `data[offset .. offset + src.length]` inside a byte list,
as `copy_from_slice` performs it. -/
def writeAt (l : List Nat) (offset : Nat) (src : List Nat) : List Nat :=
  l.take offset ++ src ++ l.drop (offset + src.length)

/-- Zero-padding of a byte list up to the given length (`Vec::resize` with
filler 0, in the growing direction). -/
def growTo (l : List Nat) (n : Nat) : List Nat :=
  l ++ List.replicate (n - l.length) 0

/-- Embedding of `ModuleCache::put_slice`: write into an existing slot at
the given offset.  A write past the end of the slot grows the slot, counting
the growth against the capacity, and fails with `CacheFull` when the growth
does not fit; the access counter is bumped on success. -/
def ModuleCache.put_slice (c : ModuleCache) (k : String) (offset : Nat)
    (data : List Nat) : Except PgError Nat × ModuleCache :=
  match lookupE c.entries k with
  | none => (Except.error (.cacheEntryNotFound k), c)
  | some e =>
    let endPos := offset + data.length
    if e.data.length < endPos then
      let required := endPos - e.data.length
      if c.capacity < c.allocated + required then
        (Except.error (.cacheFull c.allocated c.capacity), c)
      else
        (Except.ok data.length,
         { c with
           entries := updateE
             (fun e0 => ⟨writeAt (growTo e0.data endPos) offset data, e0.access + 1⟩)
             c.entries k,
           allocated := c.allocated + required })
    else
      (Except.ok data.length,
       { c with
         entries := updateE
           (fun e0 => ⟨writeAt e0.data offset data, e0.access + 1⟩) c.entries k })

/-- One call against the public cache interface, with arbitrary arguments. -/
inductive CacheOp where
  | get (k : String)
  | put (k : String) (size : Nat)
  | put_slice (k : String) (offset : Nat) (data : List Nat)
  | contains (k : String)
  deriving Repr

/-- State reached after one cache call (results discarded). -/
def ModuleCache.applyOp (c : ModuleCache) : CacheOp → ModuleCache
  | .get k => (c.get k).2
  | .put k size => (c.put k size).2
  | .put_slice k offset data => (c.put_slice k offset data).2
  | .contains _ => c

/-- State reached after a finite sequence of cache calls. -/
def ModuleCache.runOps (c : ModuleCache) (ops : List CacheOp) : ModuleCache :=
  ops.foldl ModuleCache.applyOp c

/-- Module descriptor (`protocol::ModuleInfo`).  The protocol crate revision
vendored under src/ predates this type; the fields are the ones the worker
and dispatcher agree on (spec section 3, Module descriptor). -/
structure ModuleInfo where
  name : String
  size : Nat
  chunk_size : Nat
  total_chunks : Nat
  deriving DecidableEq, Repr

/-- Expected byte count of a chunk: the declared chunk size for all but the
last chunk, and the remainder of the module for the last one. -/
def chunkExpected (size chunk_size total : Nat) (i : Nat) : Nat :=
  if i = total - 1 then size - chunk_size * (total - 1) else chunk_size

/-- Chunk reassembly state (`session::transfer::ModuleTransfer`); the
received bitset has one bit per chunk. -/
structure ModuleTransfer where
  name : String
  size : Nat
  chunk_size : Nat
  total_chunks : Nat
  received : List Bool
  deriving DecidableEq, Repr

/-- Embedding of `ModuleTransfer::new`. -/
def ModuleTransfer.new (meta : ModuleInfo) : ModuleTransfer :=
  ⟨meta.name, meta.size, meta.chunk_size, meta.total_chunks,
   List.replicate meta.total_chunks false⟩

/-- Embedding of `ModuleTransfer::is_complete` (`BitVec::all`). -/
def ModuleTransfer.is_complete (t : ModuleTransfer) : Bool :=
  t.received.all id

/-- Embedding of `ModuleTransfer::add_chunk`: bounds check, duplicate check,
size check, then a cache write at `index * chunk_size` and marking of the
received bit. -/
def ModuleTransfer.add_chunk (t : ModuleTransfer) (c : ModuleCache)
    (index : Nat) (data : List Nat) :
    Except PgError Unit × ModuleTransfer × ModuleCache :=
  if t.total_chunks ≤ index then
    (Except.error (.invalidChunkIndex index t.total_chunks), t, c)
  else if t.received.getD index false then
    (Except.error (.duplicateChunk index), t, c)
  else
    let expected := chunkExpected t.size t.chunk_size t.total_chunks index
    if data.length = expected then
      match c.put_slice t.name (index * t.chunk_size) data with
      | (Except.ok _, c') =>
          (Except.ok (), { t with received := t.received.set index true }, c')
      | (Except.error e, c') => (Except.error e, t, c')
    else (Except.error (.invalidChunkSize expected data.length), t, c)

/-- Feeds a list of `(index, bytes)` chunks to the assembler in order,
stopping with `none` at the first failing `add_chunk` call. -/
def runChunks (t : ModuleTransfer) (c : ModuleCache) :
    List (Nat × List Nat) → Option (ModuleTransfer × ModuleCache)
  | [] => some (t, c)
  | (i, d) :: rest =>
    match ModuleTransfer.add_chunk t c i d with
    | (Except.ok _, t', c') => runChunks t' c' rest
    | (Except.error _, _, _) => none

/-- Observation of a chunk-feeding run: whether all calls succeeded, the
completion flag, and the bytes of the named cache slot afterwards. -/
def runLookup (t : ModuleTransfer) (c : ModuleCache)
    (todo : List (Nat × List Nat)) (key : String) :
    Option (Bool × Option (List Nat)) :=
  (runChunks t c todo).map
    (fun p => (p.1.is_complete, (lookupE p.2.entries key).map (fun e => e.data)))

end Program

namespace Program

/-- Ack payload of a worker acknowledgement (`protocol::AckInfo`).  The
protocol crate revision vendored under src/ predates this type; the two
variants are the ones the session machine constructs (spec section 4.A). -/
inductive AckInfo where
  | task (modules : List String)
  | module (chunk_index : Nat) (success : Bool)
  deriving DecidableEq, Repr

/-- Message set used by the worker session machine (`protocol::Message` of
the richer protocol revision; spec section 4.A lists the seven variants). -/
inductive PMessage where
  | clientReady (modules : List String) (device_ram : Nat)
  | serverTask (task_id : Nat) (module : ModuleInfo) (params : List Protocol.Ty)
  | serverModule (task_id : Nat) (chunk_index : Nat) (chunk_data : List Nat)
  | clientAck (task_id : Nat) (ack_info : AckInfo)
  | clientResult (task_id : Nat) (result : List Protocol.Ty)
  | serverAck (task_id : Nat) (success : Bool)
  | heartbeat (timestamp : Nat)
  deriving DecidableEq, Repr

/-- Worker session state (`session::SessionState`).  The retry counter is a
`u8`, so its increment is taken modulo 256. -/
inductive SessionState where
  | ready
  | transferring (task_id : Nat) (transfer : ModuleTransfer)
      (params : List Protocol.Ty) (retries : Nat)
  | executing (task_id : Nat) (deadline : Nat)
  | completed
  | failed
  deriving DecidableEq, Repr

/-- Slice of the worker session that the `ServerModule` path touches: the
machine state, the module cache, and the outbound queue.  The Rust code
appends encoded bytes to the outgoing buffer; the model records the queued
messages themselves. -/
structure SessionModel where
  state : SessionState
  module_cache : ModuleCache
  outgoing : List PMessage
  deriving Repr

/-- Embedding of the `Message::ServerModule` arm of `Session::handle_message`
(src/program/src/session/mod.rs lines 221 to 270): only valid while
transferring on the matching task; a successful chunk sends a positive
module ack and, on completion, executes and completes; a failing chunk sends
a negative module ack, bumps the retry counter and returns the error.  The
executor is a parameter, as in the Rust trait. -/
def handle_server_module
    (exec : List Nat → List Protocol.Ty → Except String (List Protocol.Ty))
    (s : SessionModel) (task_id chunk_index : Nat) (chunk_data : List Nat) :
    SessionModel × Except PgError Unit :=
  match s.state with
  | .transferring current_id transfer params retries =>
    if current_id ≠ task_id then (s, Except.error (.taskNotFound task_id))
    else
      match transfer.add_chunk s.module_cache chunk_index chunk_data with
      | (Except.ok _, transfer', cache') =>
        let s1 : SessionModel :=
          { state := .transferring current_id transfer' params retries,
            module_cache := cache',
            outgoing := s.outgoing ++ [.clientAck task_id (.module chunk_index true)] }
        if transfer'.is_complete then
          match s1.module_cache.get transfer'.name with
          | (some module_data, cache2) =>
            match exec module_data params with
            | Except.ok result =>
                ({ s1 with module_cache := cache2,
                           outgoing := s1.outgoing ++ [.clientResult task_id result],
                           state := .completed }, Except.ok ())
            | Except.error e =>
                ({ s1 with module_cache := cache2 }, Except.error (.execution e))
          | (none, cache2) =>
              ({ s1 with module_cache := cache2 },
               Except.error (.cacheEntryNotFound transfer'.name))
        else (s1, Except.ok ())
      | (Except.error e, transfer', cache') =>
        ({ state := .transferring current_id transfer' params ((retries + 1) % 256),
           module_cache := cache',
           outgoing := s.outgoing ++ [.clientAck task_id (.module chunk_index false)] },
         Except.error e)
  | _ => (s, Except.ok ())

/-- Embedding of the event loop step of `Session::process_events` for one
incoming `ServerModule` message: the message is handled, and on any error
the session state is set to `Failed`. -/
def process_message_event
    (exec : List Nat → List Protocol.Ty → Except String (List Protocol.Ty))
    (s : SessionModel) (task_id chunk_index : Nat) (chunk_data : List Nat) :
    SessionModel :=
  match handle_server_module exec s task_id chunk_index chunk_data with
  | (s', Except.ok _) => s'
  | (s', Except.error _) => { s' with state := .failed }

/-- Embedding of the `Transferring` arm of `Session::process_state`: when
the retry counter exceeds three, send a task ack carrying the cached module
names and transition to `Failed`.  The cache key listing is modelled as the
keys of the entry list. -/
def process_state_transfer_check (s : SessionModel) : SessionModel :=
  match s.state with
  | .transferring task_id _ _ retries =>
    if 3 < retries then
      { s with
        outgoing := s.outgoing ++
          [.clientAck task_id (.task (s.module_cache.entries.map (fun p => p.1)))],
        state := .failed }
    else s
  | _ => s

end Program

namespace Server

/-- Device candidate record built by `TaskSystem::assign_tasks` from a
connected session: entity handle, entities of the modules the device
reports as cached, and the device RAM.  Entity handles are modelled as
naturals. -/
structure DeviceRecord where
  entity : Nat
  module_entities : List Nat
  ram : Nat
  deriving DecidableEq, Repr

/-- Embedding of `max_by_key(|d| Reverse(d.ram))` over a candidate list:
`cmp::max_by` keeps the second argument on ties, and reversing the key
turns the maximum into the minimum, so the accumulator is kept exactly when
the new element has strictly more RAM. -/
def maxByRevRam (l : List DeviceRecord) : Option DeviceRecord :=
  l.foldl (fun acc y =>
    match acc with
    | none => some y
    | some x => if y.ram > x.ram then some x else some y) none

/-- Embedding of `max_by_key(|d| d.ram)`: maximum RAM, ties kept on the
later element. -/
def maxByRam (l : List DeviceRecord) : Option DeviceRecord :=
  l.foldl (fun acc y =>
    match acc with
    | none => some y
    | some x => if x.ram > y.ram then some x else some y) none

/-- Candidates whose RAM suffices for the task (`d.ram >= required_ram`). -/
def suitableOf (devices : List DeviceRecord) (required_ram : Nat) :
    List DeviceRecord :=
  devices.filter (fun d => required_ram ≤ d.ram)

/-- Sufficient-RAM candidates that report the task module as cached. -/
def cachedOf (devices : List DeviceRecord) (module_entity required_ram : Nat) :
    List DeviceRecord :=
  (suitableOf devices required_ram).filter
    (fun d => d.module_entities.contains module_entity)

/-- Embedding of the per-task device choice of `TaskSystem::assign_tasks`
(src/server/src/systems/task.rs lines 79 to 95): among sufficient-RAM
candidates, take the `max_by_key(Reverse(ram))` element of those caching
the module, and otherwise fall back to the `max_by_key(ram)` element of all
sufficient-RAM candidates.  The list order stands for the hash-map
iteration order. -/
def selectTargetDevice (devices : List DeviceRecord)
    (module_entity required_ram : Nat) : Option Nat :=
  match maxByRevRam (cachedOf devices module_entity required_ram) with
  | some d => some d.entity
  | none => (maxByRam (suitableOf devices required_ram)).map (fun d => d.entity)

/-- Task phase (`TaskStatePhase` as used by src/server/src/systems/task.rs:
the `Executing` variant carries the deadline). -/
inductive TaskStatePhase where
  | queued
  | distributing
  | executing (deadline : Nat)
  | completed
  | failed
  deriving DecidableEq, Repr

/-- Transfer sub-state (`ModuleTransferState`). -/
inductive ModuleTransferState where
  | pending
  | requested
  | transferring
  deriving DecidableEq, Repr

/-- Transfer record attached to a task (`components::ModuleTransfer`). -/
structure ModuleTransfer where
  state : ModuleTransferState
  acked_chunks : List Bool
  session : Nat
  deriving DecidableEq, Repr

/-- Task component; of its fields the finalize pass reads only the required
module entity. -/
structure Task where
  require_module : Nat
  deriving DecidableEq, Repr

/-- Task state component (`TaskState`). -/
structure TaskState where
  phase : TaskStatePhase
  assigned_device : Option Nat
  deriving DecidableEq, Repr

/-- Session component; of its fields the finalize pass touches only the
cached module entity set, modelled as a duplicate-free list. -/
structure Session where
  modules : List Nat
  deriving DecidableEq, Repr

/-- One task entity of the world with the components the finalize pass
queries. -/
structure TaskEntity where
  id : Nat
  task : Task
  state : TaskState
  transfer : Option ModuleTransfer
  deriving DecidableEq, Repr

/-- The slice of the hecs world that `TaskSystem::finalize_transfer`
reads and writes. -/
structure World where
  tasks : List TaskEntity
  sessions : List (Nat × Session)
  deriving DecidableEq, Repr

/-- Set insertion of a `HashSet<Entity>`. -/
def insertSet (x : Nat) (l : List Nat) : List Nat :=
  if x ∈ l then l else l ++ [x]

/-- Embedding of `TaskSystem::finalize_transfer` (src/server/src/systems/
task.rs lines 193 to 223).  It collects the entities whose transfer bitset
is all ones and that have an assigned device, then for each collected pair
inserts the collected entity into the session module set, sets the phase of
every task whose required module equals the collected entity to `Executing`
with a fresh deadline, and removes the transfer record from the collected
entity.  The binding of the collected task entity to the name
`module_entity` is kept from the source. -/
def finalize_transfer (w : World) (now : Nat) : World :=
  let completed : List (Nat × Nat) := w.tasks.filterMap (fun te =>
    match te.transfer with
    | some tr =>
        if tr.acked_chunks.all id then
          te.state.assigned_device.map (fun d => (te.id, d))
        else none
    | none => none)
  completed.foldl (fun w' p =>
    let module_entity := p.1
    let session_entity := p.2
    let sessions' := w'.sessions.map (fun s =>
      if s.1 = session_entity then (s.1, ⟨insertSet module_entity s.2.modules⟩) else s)
    let tasks' := w'.tasks.map (fun te =>
      if te.task.require_module = module_entity then
        { te with state := { te.state with phase := .executing (now + 60) } }
      else te)
    let tasks2 := tasks'.map (fun te =>
      if te.id = module_entity then { te with transfer := none } else te)
    { tasks := tasks2, sessions := sessions' }) w

end Server

namespace Program

/-- Combined state invariant of the worker cache: the allocation counter
equals the total entry size, stays within the capacity, and every entry has
a positive access count. -/
def GoodCache (c : ModuleCache) : Prop :=
  sizeSum c.entries = c.allocated ∧ c.allocated ≤ c.capacity ∧
    ∀ p ∈ c.entries, 1 ≤ p.2.access

/-- Received bitset holding exactly the chunk indices in `ds`. -/
def mark (N : Nat) (ds : List Nat) : List Bool :=
  (List.range N).map (fun i => decide (i ∈ ds))

/-- Contents of the cache slot of a partially assembled module: the chunk
bytes where the chunk has arrived, zero filler elsewhere. -/
def blocksOf (size chunk_size total : Nat) (chunks : Nat → List Nat)
    (ds : List Nat) : List (List Nat) :=
  (List.range total).map (fun i =>
    if i ∈ ds then chunks i
    else List.replicate (chunkExpected size chunk_size total i) 0)

/-- Concrete three-chunk module descriptor used as a test vector (the
out-of-order scenario of the spec, shrunk). -/
def meta5 : ModuleInfo := ⟨"m", 5, 2, 3⟩

/-- Concrete chunk contents for `meta5`. -/
def chunks5 : Nat → List Nat := fun i => [[1, 1], [2, 2], [3]].getD i []

/-- Cache holding a freshly allocated slot for `meta5`. -/
def c5init : ModuleCache := ⟨[("m", ⟨List.replicate 5 0, 1⟩)], 4096, 5⟩

/-- Cache reached by allocating a two-byte slot in an empty ten-byte cache. -/
def c9 : ModuleCache := ((ModuleCache.new 10).put "k" 2).2

/-- Executor stub returning an empty result vector. -/
def exec0 : List Nat → List Protocol.Ty → Except String (List Protocol.Ty) :=
  fun _ _ => Except.ok []

/-- Session in the middle of a single-chunk transfer of module `m` for task
1, with no retries so far. -/
def s8 : SessionModel :=
  { state := .transferring 1 ⟨"m", 4, 4, 1, [false]⟩ [] 0,
    module_cache := ⟨[("m", ⟨[0, 0, 0, 0], 1⟩)], 65536, 4⟩,
    outgoing := [] }

end Program

namespace Server

/-- World holding one task entity (id 10, required module entity 20, phase
Distributing, assigned device 30) whose transfer bitset is all ones, and the
session entity 30 with an empty cached set. -/
def exW : World :=
  ⟨[⟨10, ⟨20⟩, ⟨.distributing, some 30⟩, some ⟨.transferring, [true, true], 30⟩⟩],
   [(30, ⟨[]⟩)]⟩

end Server

/-- C2: the claim states that `Message::deserialize` never panics and
always returns a message or a protocol error.  The code belies it: the
slice `data[3 .. 3 + payload_len]` is taken before checking that the input
holds `payload_len` bytes, so the three-byte frame `[0x01, 0x00, 0x05]`
declaring five payload bytes panics; likewise the `ServerTask` payload
slice `payload[12 .. 12 + binary_len]` panics when the embedded binary
length (here 99) runs past the twelve-byte payload.  Both evaluations below
reach the modelled panic outcome. -/
theorem Protocol.deserialize_truncated_input_panics :
    Protocol.Msg.deserialize [1, 0, 5] = Protocol.DesOut.crash ∧
    Protocol.Msg.deserialize
        [2, 0, 12, 0, 0, 0, 0, 0, 0, 0, 1, 0, 0, 0, 99] =
      Protocol.DesOut.crash := by
  decide

/-- C7: the claim states that after a finalize pass a task with an all-ones
acked bitset and an assigned device is Executing, its module is in the
device cached set, and its transfer record is gone.  Evaluating
`finalize_transfer` on such a world shows the transfer record is indeed
removed, but the task stays in Distributing (the code compares
`task.require_module` against the task entity instead of the module entity)
and the session cached set receives the task entity 10 instead of the
module entity 20. -/
theorem Server.finalize_transfer_leaves_task_distributing :
    Server.finalize_transfer Server.exW 0 =
      ⟨[⟨10, ⟨20⟩, ⟨.distributing, some 30⟩, none⟩], [(30, ⟨[10]⟩)]⟩ := by
  decide

/-- C8: the claim states that a failed chunk leaves the session in
Transferring until the retry counter exceeds three.  Evaluating the
`ServerModule` handling on a wrongly sized chunk shows the handler does
send `ClientAck (Module, chunk 0, success false)` and does increment the
retry counter to one, but `process_events` turns the returned error into an
immediate transition to Failed, and the `retries > 3` check of
`process_state` would have kept the session in Transferring. -/
theorem Program.chunk_failure_fails_session_immediately :
    (Program.handle_server_module Program.exec0 Program.s8 1 0 [9, 9]).1.state
        = Program.SessionState.transferring 1 ⟨"m", 4, 4, 1, [false]⟩ [] 1 ∧
    (Program.handle_server_module Program.exec0 Program.s8 1 0 [9, 9]).1.outgoing
        = [Program.PMessage.clientAck 1 (Program.AckInfo.module 0 false)] ∧
    (Program.handle_server_module Program.exec0 Program.s8 1 0 [9, 9]).2
        = Except.error (Program.PgError.invalidChunkSize 4 2) ∧
    (Program.process_message_event Program.exec0 Program.s8 1 0 [9, 9]).state
        = Program.SessionState.failed ∧
    (Program.process_state_transfer_check
        (Program.handle_server_module Program.exec0 Program.s8 1 0 [9, 9]).1).state
        = Program.SessionState.transferring 1 ⟨"m", 4, 4, 1, [false]⟩ [] 1 := by
  decide

/-- C9 counterexample: the claim states that `put_slice` past the declared
slot length fails and leaves the slot unchanged.  On the reachable cache
`c9` (one slot `k` of declared size two, capacity ten), writing three bytes
at offset zero succeeds and grows the slot to three bytes. -/
theorem Program.put_slice_grows_slot_counterexample :
    ((Program.c9.put_slice "k" 0 [1, 2, 3]).1 = Except.ok 3) ∧
    Program.lookupE (Program.c9.put_slice "k" 0 [1, 2, 3]).2.entries "k"
      = some ⟨[1, 2, 3], 2⟩ ∧
    (Program.c9.put_slice "k" 0 [1, 2, 3]).2.allocated = 3 := by
  decide

/-- C6 counterexample: the claim states that among sufficient-RAM devices
caching the module the one with the largest RAM is chosen.  With two cached
candidates of RAM 3000 (entity 1) and 2500 (entity 2) for a requirement of
2100, the selection returns entity 2, the smaller one: the code maximises
`Reverse(ram)`. -/
theorem Server.select_not_largest_cached_counterexample :
    Server.selectTargetDevice [⟨1, [7], 3000⟩, ⟨2, [7], 2500⟩] 7 2100
        = some 2 ∧
    Server.selectTargetDevice [⟨1, [7], 3000⟩, ⟨2, [7], 2500⟩] 7 2100
        ≠ some 1 := by
  decide

namespace Protocol

theorem length_beBytes2 (n : Nat) : (beBytes2 n).length = 2 := rfl

theorem length_beBytes4 (n : Nat) : (beBytes4 n).length = 4 := rfl

theorem length_beBytes8 (n : Nat) : (beBytes8 n).length = 8 := rfl

theorem readBe_beBytes2 (n : Nat) (h : n < 2 ^ 16) : readBe (beBytes2 n) = n := by
  simp only [readBe, beBytes2, List.foldl_cons, List.foldl_nil]
  omega

theorem readBe_beBytes4 (n : Nat) (h : n < 2 ^ 32) : readBe (beBytes4 n) = n := by
  simp only [readBe, beBytes4, List.foldl_cons, List.foldl_nil]
  omega

theorem readBe_beBytes8 (n : Nat) (h : n < 2 ^ 64) : readBe (beBytes8 n) = n := by
  simp only [readBe, beBytes8, List.foldl_cons, List.foldl_nil]
  omega

theorem encode_length_le (v : Ty) : v.encode.length ≤ 4 := by
  cases v <;> simp [Ty.encode]

theorem encode_words_lt (v : Ty) (h : v.wf) : ∀ w ∈ v.encode, w < 2 ^ 32 := by
  cases v <;> simp_all [Ty.wf, Ty.encode]

theorem flatten_beBytes4_length (ws : List Nat) :
    ((ws.map beBytes4).flatten).length = 4 * ws.length := by
  induction ws with
  | nil => rfl
  | cons w ws ih =>
    simp only [List.map_cons, List.flatten_cons, List.length_append, ih,
      length_beBytes4, List.length_cons]
    omega

theorem chunkWords_flatten (ws rest : List Nat) (h : ∀ w ∈ ws, w < 2 ^ 32) :
    chunkWords ws.length ((ws.map beBytes4).flatten ++ rest) = ws := by
  induction ws generalizing rest with
  | nil => rfl
  | cons w ws ih =>
    have hw : w < 2 ^ 32 := h w (List.mem_cons_self w ws)
    simp only [List.map_cons, List.flatten_cons, List.length_cons, List.append_assoc,
      chunkWords]
    rw [List.take_left' (length_beBytes4 w), List.drop_left' (length_beBytes4 w),
      readBe_beBytes4 w hw, ih _ (fun x hx => h x (List.mem_cons_of_mem w hx))]

theorem decodeTag_encode (v : Ty) : decodeTag v.tag v.encode = .val v := by
  cases v <;> rfl

theorem serializeOne_eq (v : Ty) :
    serializeOne v = v.tag :: v.encode.length :: (v.encode.map beBytes4).flatten := by
  cases v <;> rfl

theorem deserialize_typesAux_serialize (ps : List Ty) (h : ∀ v ∈ ps, v.wf) :
    deserialize_typesAux ps.length ((ps.map serializeOne).flatten) = some ps := by
  induction ps with
  | nil => rfl
  | cons v ps ih =>
    have hv : v.wf := h v (List.mem_cons_self v ps)
    have hrest : ∀ u ∈ ps, u.wf := fun u hu => h u (List.mem_cons_of_mem v hu)
    have hbody : ((v.encode.map beBytes4).flatten).length = 4 * v.encode.length :=
      flatten_beBytes4_length v.encode
    have hsplit : ((v :: ps).map serializeOne).flatten
        = v.tag :: v.encode.length ::
            ((v.encode.map beBytes4).flatten ++ (ps.map serializeOne).flatten) := by
      rw [List.map_cons, List.flatten_cons, serializeOne_eq]
      rfl
    rw [hsplit, List.length_cons]
    simp only [deserialize_typesAux]
    rw [if_pos (by rw [List.length_append, hbody]; omega)]
    rw [chunkWords_flatten v.encode ((ps.map serializeOne).flatten) (encode_words_lt v hv),
      decodeTag_encode v, List.drop_left' (by rw [hbody]; ring), ih hrest]
    rfl

theorem deserialize_serialize_types (ps : List Ty) (hlen : ps.length < 2 ^ 16)
    (h : ∀ v ∈ ps, v.wf) :
    deserialize_types (serialize_types ps) = some ps := by
  have hmod : ps.length % 2 ^ 16 = ps.length := Nat.mod_eq_of_lt hlen
  simp only [serialize_types, hmod, beBytes2, List.cons_append, List.nil_append,
    deserialize_types]
  have : ps.length / 2 ^ 8 % 256 * 256 + ps.length % 256 = ps.length := by omega
  rw [this, deserialize_typesAux_serialize ps h]

theorem length_serialize_types (ps : List Ty) :
    (serialize_types ps).length =
      2 + ((ps.map serializeOne).flatten).length := by
  simp [serialize_types, beBytes2]
  omega

end Protocol

namespace Protocol

theorem payload_length_lt (m : Msg) (h : m.wf) : m.payload.length < 2 ^ 16 := by
  cases m with
  | clientReady => simp [Msg.payload]
  | serverTask id bin ps =>
    obtain ⟨-, -, -, hpay⟩ := h
    simp only [Msg.payload, List.length_append, length_beBytes8, length_beBytes4]
    omega
  | clientResult id rs =>
    obtain ⟨-, -, -, hpay⟩ := h
    simp only [Msg.payload, List.length_append, length_beBytes8]
    omega
  | serverAck id succ =>
    simp [Msg.payload, length_beBytes8]

theorem deserialize_serialize_header (m : Msg) (hlt : m.payload.length < 2 ^ 16) :
    Msg.deserialize m.serialize = Msg.deserializeBody m.msgType m.payload ∧
    frameLen m.serialize = m.serialize.length := by
  have hdrop1 : m.serialize.drop 1 = beBytes2 (m.payload.length % 2 ^ 16) ++ m.payload := rfl
  have htake2 : (m.serialize.drop 1).take 2 = beBytes2 (m.payload.length % 2 ^ 16) := by
    rw [hdrop1, List.take_left' (length_beBytes2 _)]
  have hread : readBe ((m.serialize.drop 1).take 2) = m.payload.length := by
    rw [htake2, readBe_beBytes2 _ (Nat.mod_lt _ (by norm_num)), Nat.mod_eq_of_lt hlt]
  have hlen : m.serialize.length = 3 + m.payload.length := by
    show (m.msgType :: (beBytes2 (m.payload.length % 2 ^ 16) ++ m.payload)).length = _
    simp [length_beBytes2]
    omega
  have hdrop3 : m.serialize.drop 3 = m.payload := by
    show (m.msgType :: (beBytes2 (m.payload.length % 2 ^ 16) ++ m.payload)).drop 3 = _
    rw [List.drop_succ_cons, List.drop_left' (length_beBytes2 _)]
  have hhead : m.serialize.headD 0 = m.msgType := rfl
  constructor
  · rw [Msg.deserialize]
    rw [if_neg (by omega), hread, if_neg (by omega), hhead, hdrop3, List.take_length]
  · rw [frameLen, hread, hlen]

theorem deserializeBody_serverTask (id : Nat) (bin : List Nat) (ps : List Ty)
    (hid : id < 2 ^ 64) (hbl : bin.length < 2 ^ 32) (hps : ps.length < 2 ^ 16)
    (hwf : ∀ v ∈ ps, v.wf) :
    Msg.deserializeBody 2 ((Msg.serverTask id bin ps).payload)
      = DesOut.ok (.serverTask id bin ps) := by
  have hmod : bin.length % 2 ^ 32 = bin.length := Nat.mod_eq_of_lt hbl
  have hP : (Msg.serverTask id bin ps).payload
      = beBytes8 id ++ (beBytes4 bin.length ++ (bin ++ serialize_types ps)) := by
    show beBytes8 id ++ beBytes4 (bin.length % 2 ^ 32) ++ bin ++ serialize_types ps = _
    rw [hmod, List.append_assoc, List.append_assoc]
  rw [hP]
  set P := beBytes8 id ++ (beBytes4 bin.length ++ (bin ++ serialize_types ps)) with hPdef
  have hPlen : P.length = 12 + bin.length + (serialize_types ps).length := by
    simp only [hPdef, List.length_append, length_beBytes8, length_beBytes4]
    omega
  have htake8 : P.take 8 = beBytes8 id := by
    rw [hPdef]
    exact List.take_left' (length_beBytes8 id)
  have hdrop8 : P.drop 8 = beBytes4 bin.length ++ (bin ++ serialize_types ps) := by
    rw [hPdef]
    exact List.drop_left' (length_beBytes8 id)
  have htake4 : (P.drop 8).take 4 = beBytes4 bin.length := by
    rw [hdrop8]
    exact List.take_left' (length_beBytes4 _)
  have hdrop12 : P.drop 12 = bin ++ serialize_types ps := by
    have : P = (beBytes8 id ++ beBytes4 bin.length) ++ (bin ++ serialize_types ps) := by
      rw [hPdef, List.append_assoc]
    rw [this]
    exact List.drop_left' (by simp [length_beBytes8, length_beBytes4])
  have htakebin : (P.drop 12).take bin.length = bin := by
    rw [hdrop12]
    exact List.take_left' rfl
  have hdropst : P.drop (12 + bin.length) = serialize_types ps := by
    have : P = ((beBytes8 id ++ beBytes4 bin.length) ++ bin) ++ serialize_types ps := by
      rw [hPdef]
      simp [List.append_assoc]
    rw [this]
    exact List.drop_left' (by simp [length_beBytes8, length_beBytes4]; omega)
  simp only [Msg.deserializeBody]
  rw [if_neg (by omega), htake8, readBe_beBytes8 id hid, htake4,
    readBe_beBytes4 _ hbl, if_neg (by omega), htakebin, hdropst,
    deserialize_serialize_types ps hps hwf]

theorem deserializeBody_clientResult (id : Nat) (rs : List Ty)
    (hid : id < 2 ^ 64) (hrs : rs.length < 2 ^ 16) (hwf : ∀ v ∈ rs, v.wf) :
    Msg.deserializeBody 3 ((Msg.clientResult id rs).payload)
      = DesOut.ok (.clientResult id rs) := by
  have hP : (Msg.clientResult id rs).payload = beBytes8 id ++ serialize_types rs := rfl
  rw [hP]
  set P := beBytes8 id ++ serialize_types rs with hPdef
  have hPlen : P.length = 8 + (serialize_types rs).length := by
    simp only [hPdef, List.length_append, length_beBytes8]
  have htake8 : P.take 8 = beBytes8 id := by
    rw [hPdef]
    exact List.take_left' (length_beBytes8 id)
  have hdrop8 : P.drop 8 = serialize_types rs := by
    rw [hPdef]
    exact List.drop_left' (length_beBytes8 id)
  have hst : 2 ≤ (serialize_types rs).length := by
    rw [length_serialize_types]
    omega
  simp only [Msg.deserializeBody]
  rw [if_neg (by omega), htake8, readBe_beBytes8 id hid, hdrop8,
    deserialize_serialize_types rs hrs hwf]

theorem deserializeBody_serverAck (id : Nat) (succ : Bool) (hid : id < 2 ^ 64) :
    Msg.deserializeBody 4 ((Msg.serverAck id succ).payload)
      = DesOut.ok (.serverAck id succ) := by
  have hP : (Msg.serverAck id succ).payload
      = beBytes8 id ++ [if succ then 1 else 0] := rfl
  rw [hP]
  set P := beBytes8 id ++ [if succ then 1 else 0] with hPdef
  have hPlen : P.length = 9 := by
    simp only [hPdef, List.length_append, length_beBytes8, List.length_singleton]
  have htake8 : P.take 8 = beBytes8 id := by
    rw [hPdef]
    exact List.take_left' (length_beBytes8 id)
  have hgetD : P.getD 8 0 = if succ then 1 else 0 := by
    rw [hPdef, List.getD_eq_getElem?_getD, List.getElem?_append_right (by simp [length_beBytes8])]
    simp [length_beBytes8]
  simp only [Msg.deserializeBody]
  rw [if_neg (by omega), htake8, readBe_beBytes8 id hid, hgetD]
  cases succ <;> rfl

/-- C1: for every valid message, deserializing the bytes produced by
serializing it yields the message back, and the number of frame bytes the
decoder consumes (header plus declared payload length, `frameLen`) equals
the length of the serialized frame. -/
theorem Msg.roundtrip (m : Msg) (h : m.wf) :
    Msg.deserialize m.serialize = DesOut.ok m ∧
    frameLen m.serialize = m.serialize.length := by
  have hlt : m.payload.length < 2 ^ 16 := payload_length_lt m h
  obtain ⟨hhdr, hframe⟩ := deserialize_serialize_header m hlt
  refine ⟨?_, hframe⟩
  rw [hhdr]
  cases m with
  | clientReady => rfl
  | serverTask id bin ps =>
    obtain ⟨hid, hps, hwf, hpay⟩ := h
    exact deserializeBody_serverTask id bin ps hid (by omega) hps hwf
  | clientResult id rs =>
    obtain ⟨hid, hrs, hwf, hpay⟩ := h
    exact deserializeBody_clientResult id rs hid hrs hwf
  | serverAck id succ =>
    exact deserializeBody_serverAck id succ h

/-- C1 witness: the round-trip theorem applied to a concrete valid
`ServerTask` message. -/
theorem Msg_roundtrip_witness :
    Msg.deserialize (Msg.serverTask 5 [1, 2, 3] [.i32 7, .void]).serialize
        = DesOut.ok (.serverTask 5 [1, 2, 3] [.i32 7, .void]) ∧
    frameLen (Msg.serverTask 5 [1, 2, 3] [.i32 7, .void]).serialize
        = (Msg.serverTask 5 [1, 2, 3] [.i32 7, .void]).serialize.length :=
  Msg.roundtrip (.serverTask 5 [1, 2, 3] [.i32 7, .void]) (by decide)

end Protocol

namespace Program

theorem sizeSum_nil : sizeSum [] = 0 := rfl

theorem sizeSum_cons (p : String × CacheEntry) (l : List (String × CacheEntry)) :
    sizeSum (p :: l) = p.2.data.length + sizeSum l := by
  simp [sizeSum]

theorem sizeSum_eraseE (l : List (String × CacheEntry)) (k : String) (e : CacheEntry)
    (h : lookupE l k = some e) :
    sizeSum l = sizeSum (eraseE l k) + e.data.length := by
  induction l with
  | nil => simp [lookupE] at h
  | cons p l ih =>
    by_cases hk : p.1 = k
    · rw [lookupE, if_pos hk] at h
      have he : p.2 = e := by injection h
      rw [eraseE, if_pos hk, sizeSum_cons, he]
      omega
    · rw [lookupE, if_neg hk] at h
      rw [eraseE, if_neg hk, sizeSum_cons, sizeSum_cons, ih h]
      omega

theorem sizeSum_insertE (l : List (String × CacheEntry)) (k : String) (e : CacheEntry) :
    sizeSum (insertE l k e) = sizeSum l + e.data.length := by
  induction l with
  | nil => simp [insertE, sizeSum_cons, sizeSum_nil]
  | cons p l ih =>
    by_cases hk : k ≤ p.1
    · rw [insertE, if_pos hk, sizeSum_cons, sizeSum_cons]
      dsimp only
      omega
    · rw [insertE, if_neg hk, sizeSum_cons, sizeSum_cons, ih]
      omega

theorem sizeSum_updateE (f : CacheEntry → CacheEntry)
    (l : List (String × CacheEntry)) (k : String) (e : CacheEntry)
    (h : lookupE l k = some e) :
    sizeSum (updateE f l k) + e.data.length = sizeSum l + (f e).data.length := by
  induction l with
  | nil => simp [lookupE] at h
  | cons p l ih =>
    by_cases hk : p.1 = k
    · rw [lookupE, if_pos hk] at h
      have he : p.2 = e := by injection h
      rw [updateE, if_pos hk, sizeSum_cons, sizeSum_cons, he]
      dsimp only
      omega
    · rw [lookupE, if_neg hk] at h
      rw [updateE, if_neg hk, sizeSum_cons, sizeSum_cons]
      have := ih h
      omega

theorem lookupE_updateE (f : CacheEntry → CacheEntry)
    (l : List (String × CacheEntry)) (k : String) :
    lookupE (updateE f l k) k = (lookupE l k).map f := by
  induction l with
  | nil => rfl
  | cons p l ih =>
    by_cases hk : p.1 = k
    · rw [updateE, if_pos hk, lookupE, if_pos hk, lookupE, if_pos hk]
      rfl
    · rw [updateE, if_neg hk, lookupE, if_neg hk, lookupE, if_neg hk, ih]

theorem mem_eraseE (l : List (String × CacheEntry)) (k : String)
    (p : String × CacheEntry) (h : p ∈ eraseE l k) : p ∈ l := by
  induction l with
  | nil => simp [eraseE] at h
  | cons q l ih =>
    by_cases hk : q.1 = k
    · rw [eraseE, if_pos hk] at h
      exact List.mem_cons_of_mem q h
    · rw [eraseE, if_neg hk] at h
      rcases List.mem_cons.mp h with h | h
      · exact h ▸ List.mem_cons_self q l
      · exact List.mem_cons_of_mem q (ih h)

theorem mem_insertE (l : List (String × CacheEntry)) (k : String) (e : CacheEntry)
    (p : String × CacheEntry) (h : p ∈ insertE l k e) : p ∈ l ∨ p = (k, e) := by
  induction l with
  | nil =>
    simp [insertE] at h
    exact Or.inr h
  | cons q l ih =>
    by_cases hk : k ≤ q.1
    · rw [insertE, if_pos hk] at h
      rcases List.mem_cons.mp h with h | h
      · exact Or.inr h
      · exact Or.inl h
    · rw [insertE, if_neg hk] at h
      rcases List.mem_cons.mp h with h | h
      · exact Or.inl (h ▸ List.mem_cons_self q l)
      · rcases ih h with h | h
        · exact Or.inl (List.mem_cons_of_mem q h)
        · exact Or.inr h

theorem mem_updateE (f : CacheEntry → CacheEntry)
    (l : List (String × CacheEntry)) (k : String)
    (p : String × CacheEntry) (h : p ∈ updateE f l k) :
    p ∈ l ∨ ∃ q ∈ l, p = (q.1, f q.2) := by
  induction l with
  | nil => simp [updateE] at h
  | cons q l ih =>
    by_cases hk : q.1 = k
    · rw [updateE, if_pos hk] at h
      rcases List.mem_cons.mp h with h | h
      · exact Or.inr ⟨q, List.mem_cons_self q l, h⟩
      · exact Or.inl (List.mem_cons_of_mem q h)
    · rw [updateE, if_neg hk] at h
      rcases List.mem_cons.mp h with h | h
      · exact Or.inl (h ▸ List.mem_cons_self q l)
      · rcases ih h with h | ⟨r, hr, hp⟩
        · exact Or.inl (List.mem_cons_of_mem q h)
        · exact Or.inr ⟨r, List.mem_cons_of_mem q hr, hp⟩

theorem evictLoop_sizeSum (fuel cap size : Nat) :
    ∀ (es : List (String × CacheEntry)) (alloc : Nat), sizeSum es = alloc →
      sizeSum (evictLoop fuel cap size es alloc).1 = (evictLoop fuel cap size es alloc).2 ∧
      (evictLoop fuel cap size es alloc).2 ≤ alloc := by
  induction fuel with
  | zero => intro es alloc h; exact ⟨h, Nat.le_refl alloc⟩
  | succ fuel ih =>
    intro es alloc h
    rw [evictLoop]
    by_cases hc : cap - alloc < size
    · rw [if_pos hc]
      cases hv : selectVictim es with
      | none =>
        simp only [hv]
        exact ⟨h, Nat.le_refl alloc⟩
      | some k =>
        cases hl : lookupE es k with
        | none =>
          simp only [hv, hl]
          exact ⟨h, Nat.le_refl alloc⟩
        | some e =>
          simp only [hv, hl]
          have hsum := sizeSum_eraseE es k e hl
          have hrec := ih (eraseE es k) (alloc - e.data.length) (by omega)
          exact ⟨hrec.1, by omega⟩
    · rw [if_neg hc]
      exact ⟨h, Nat.le_refl alloc⟩

theorem evictLoop_mem (fuel cap size : Nat) :
    ∀ (es : List (String × CacheEntry)) (alloc : Nat) (p : String × CacheEntry),
      p ∈ (evictLoop fuel cap size es alloc).1 → p ∈ es := by
  induction fuel with
  | zero => intro es alloc p h; exact h
  | succ fuel ih =>
    intro es alloc p h
    rw [evictLoop] at h
    by_cases hc : cap - alloc < size
    · rw [if_pos hc] at h
      cases hv : selectVictim es with
      | none =>
        simp only [hv] at h
        exact h
      | some k =>
        cases hl : lookupE es k with
        | none =>
          simp only [hv, hl] at h
          exact h
        | some e =>
          simp only [hv, hl] at h
          exact mem_eraseE es k p (ih _ _ p h)
    · rw [if_neg hc] at h
      exact h

theorem writeAt_length (l : List Nat) (offset : Nat) (src : List Nat)
    (h : offset + src.length ≤ l.length) :
    (writeAt l offset src).length = l.length := by
  simp [writeAt]
  omega

theorem growTo_length (l : List Nat) (n : Nat) (h : l.length ≤ n) :
    (growTo l n).length = n := by
  simp [growTo]
  omega 

theorem good_new (cap : Nat) : GoodCache (ModuleCache.new cap) := by
  refine ⟨rfl, Nat.zero_le _, ?_⟩
  intro p hp
  simp [ModuleCache.new] at hp

theorem good_get (c : ModuleCache) (k : String) (h : GoodCache c) :
    GoodCache (c.get k).2 := by
  obtain ⟨h1, h2, h3⟩ := h
  unfold ModuleCache.get
  cases hl : lookupE c.entries k with
  | none =>
    simp only [hl]
    exact ⟨h1, h2, h3⟩
  | some e =>
    simp only [hl]
    refine ⟨?_, h2, ?_⟩
    · have hupd := sizeSum_updateE (fun e0 => { e0 with access := e0.access + 1 })
        c.entries k e hl
      dsimp only at hupd
      dsimp only
      omega
    · intro p hp
      rcases mem_updateE _ _ _ p hp with hmem | ⟨q, hq, hpq⟩
      · exact h3 p hmem
      · rw [hpq]
        exact Nat.succ_le_succ (Nat.zero_le _)

theorem good_put (c : ModuleCache) (k : String) (size : Nat) (h : GoodCache c) :
    GoodCache (c.put k size).2 := by
  obtain ⟨h1, h2, h3⟩ := h
  unfold ModuleCache.put
  cases hl : lookupE c.entries k with
  | none =>
    simp only [hl]
    have he := evictLoop_sizeSum c.entries.length c.capacity size c.entries c.allocated h1
    have hm := fun p hp =>
      evictLoop_mem c.entries.length c.capacity size c.entries c.allocated p hp
    by_cases hcap : size ≤ c.capacity -
        (evictLoop c.entries.length c.capacity size c.entries c.allocated).2
    · rw [if_pos hcap]
      refine ⟨?_, by dsimp only; omega, ?_⟩
      · dsimp only
        rw [sizeSum_insertE, he.1]
        simp
      · intro p hp
        rcases mem_insertE _ _ _ p hp with hmem | hpe
        · exact h3 p (hm p hmem)
        · rw [hpe]
    · rw [if_neg hcap]
      exact ⟨he.1, by dsimp only; omega, fun p hp => h3 p (hm p hp)⟩
  | some e =>
    simp only [hl]
    have hs := sizeSum_eraseE c.entries k e hl
    have hsum0 : sizeSum (eraseE c.entries k) = c.allocated - e.data.length := by omega
    have he := evictLoop_sizeSum (eraseE c.entries k).length c.capacity size
      (eraseE c.entries k) (c.allocated - e.data.length) hsum0
    have hm := fun p hp => mem_eraseE c.entries k p
      (evictLoop_mem (eraseE c.entries k).length c.capacity size
        (eraseE c.entries k) (c.allocated - e.data.length) p hp)
    by_cases hcap : size ≤ c.capacity -
        (evictLoop (eraseE c.entries k).length c.capacity size
          (eraseE c.entries k) (c.allocated - e.data.length)).2
    · rw [if_pos hcap]
      refine ⟨?_, by dsimp only; omega, ?_⟩
      · dsimp only
        rw [sizeSum_insertE, he.1]
        simp
      · intro p hp
        rcases mem_insertE _ _ _ p hp with hmem | hpe
        · exact h3 p (hm p hmem)
        · rw [hpe]
    · rw [if_neg hcap]
      exact ⟨he.1, by dsimp only; omega, fun p hp => h3 p (hm p hp)⟩

theorem good_put_slice (c : ModuleCache) (k : String) (offset : Nat)
    (data : List Nat) (h : GoodCache c) : GoodCache (c.put_slice k offset data).2 := by
  obtain ⟨h1, h2, h3⟩ := h
  unfold ModuleCache.put_slice
  cases hl : lookupE c.entries k with
  | none =>
    simp only [hl]
    exact ⟨h1, h2, h3⟩
  | some e =>
    simp only [hl]
    by_cases hover : e.data.length < offset + data.length
    · rw [if_pos hover]
      by_cases hcap : c.capacity < c.allocated + (offset + data.length - e.data.length)
      · rw [if_pos hcap]
        exact ⟨h1, h2, h3⟩
      · rw [if_neg hcap]
        refine ⟨?_, by dsimp only; omega, ?_⟩
        · have hupd := sizeSum_updateE
            (fun e0 => ⟨writeAt (growTo e0.data (offset + data.length)) offset data,
              e0.access + 1⟩) c.entries k e hl
          dsimp only at hupd
          rw [writeAt_length _ _ _
              (by rw [growTo_length _ _ (Nat.le_of_lt hover)]),
            growTo_length _ _ (Nat.le_of_lt hover)] at hupd
          dsimp only
          omega
        · intro p hp
          rcases mem_updateE _ _ _ p hp with hmem | ⟨q, hq, hpq⟩
          · exact h3 p hmem
          · rw [hpq]
            exact Nat.succ_le_succ (Nat.zero_le _)
    · rw [if_neg hover]
      refine ⟨?_, h2, ?_⟩
      · have hupd := sizeSum_updateE
          (fun e0 => ⟨writeAt e0.data offset data, e0.access + 1⟩) c.entries k e hl
        dsimp only at hupd
        rw [writeAt_length _ _ _ (by omega)] at hupd
        dsimp only
        omega
      · intro p hp
        rcases mem_updateE _ _ _ p hp with hmem | ⟨q, hq, hpq⟩
        · exact h3 p hmem
        · rw [hpq]
          exact Nat.succ_le_succ (Nat.zero_le _)

theorem good_applyOp (c : ModuleCache) (op : CacheOp) (h : GoodCache c) :
    GoodCache (c.applyOp op) := by
  cases op with
  | get k => exact good_get c k h
  | put k size => exact good_put c k size h
  | put_slice k offset data => exact good_put_slice c k offset data h
  | contains k => exact h

theorem good_runOps (ops : List CacheOp) :
    ∀ c : ModuleCache, GoodCache c → GoodCache (c.runOps ops) := by
  induction ops with
  | nil => exact fun c h => h
  | cons op ops ih =>
    intro c h
    exact ih (c.applyOp op) (good_applyOp c op h)

theorem capacity_get (c : ModuleCache) (k : String) :
    (c.get k).2.capacity = c.capacity := by
  unfold ModuleCache.get
  cases hl : lookupE c.entries k <;> simp only [hl]

theorem capacity_put (c : ModuleCache) (k : String) (size : Nat) :
    (c.put k size).2.capacity = c.capacity := by
  unfold ModuleCache.put
  cases hl : lookupE c.entries k <;> simp only [hl] <;> split <;> rfl

theorem capacity_put_slice (c : ModuleCache) (k : String) (offset : Nat)
    (data : List Nat) : (c.put_slice k offset data).2.capacity = c.capacity := by
  unfold ModuleCache.put_slice
  cases hl : lookupE c.entries k <;> simp only [hl]
  split
  · split <;> rfl
  · rfl

theorem capacity_applyOp (c : ModuleCache) (op : CacheOp) :
    (c.applyOp op).capacity = c.capacity := by
  cases op with
  | get k => exact capacity_get c k
  | put k size => exact capacity_put c k size
  | put_slice k offset data => exact capacity_put_slice c k offset data
  | contains k => rfl

theorem capacity_runOps (ops : List CacheOp) :
    ∀ c : ModuleCache, (c.runOps ops).capacity = c.capacity := by
  induction ops with
  | nil => exact fun c => rfl
  | cons op ops ih =>
    intro c
    have hstep : ModuleCache.runOps c (op :: ops)
        = ModuleCache.runOps (c.applyOp op) ops := rfl
    rw [hstep, ih (c.applyOp op), capacity_applyOp]

/-- C3: starting from a fresh cache of any capacity, after every finite
sequence of module-cache operations (get, put, put_slice, contains_key)
with arbitrary arguments, whether they succeed or fail, the sum of the byte
sizes of the entries equals the allocation counter and is at most the
configured capacity. -/
theorem cache_capacity_invariant (cap : Nat) (ops : List CacheOp) :
    sizeSum (ModuleCache.runOps (ModuleCache.new cap) ops).entries
        = (ModuleCache.runOps (ModuleCache.new cap) ops).allocated ∧
    (ModuleCache.runOps (ModuleCache.new cap) ops).allocated ≤ cap := by
  have hg := good_runOps ops (ModuleCache.new cap) (good_new cap)
  have hc := capacity_runOps ops (ModuleCache.new cap)
  refine ⟨hg.1, ?_⟩
  have h2 := hg.2.1
  rw [hc] at h2
  exact h2

theorem cross_trans (a b c : CacheEntry) (hb : 1 ≤ b.access)
    (h1 : a.access ^ 2 * b.data.length ≤ b.access ^ 2 * a.data.length)
    (h2 : b.access ^ 2 * c.data.length ≤ c.access ^ 2 * b.data.length) :
    a.access ^ 2 * c.data.length ≤ c.access ^ 2 * a.data.length := by
  rcases Nat.eq_zero_or_pos b.data.length with hz | hpos
  · have hb2 : 0 < b.access ^ 2 := pow_pos hb 2
    have hc0 : c.data.length = 0 := by
      rw [hz, Nat.mul_zero] at h2
      rcases Nat.mul_eq_zero.mp (Nat.le_zero.mp h2) with h | h
      · omega
      · exact h
    rw [hc0, Nat.mul_zero]
    exact Nat.zero_le _
  · have key : (a.access ^ 2 * b.data.length) * (b.access ^ 2 * c.data.length)
        ≤ (b.access ^ 2 * a.data.length) * (c.access ^ 2 * b.data.length) :=
      Nat.mul_le_mul h1 h2
    have hpos2 : 0 < b.access ^ 2 * b.data.length := Nat.mul_pos (pow_pos hb 2) hpos
    have key2 : (a.access ^ 2 * c.data.length) * (b.access ^ 2 * b.data.length)
        ≤ (c.access ^ 2 * a.data.length) * (b.access ^ 2 * b.data.length) := by
      calc (a.access ^ 2 * c.data.length) * (b.access ^ 2 * b.data.length)
          = (a.access ^ 2 * b.data.length) * (b.access ^ 2 * c.data.length) := by ring
        _ ≤ (b.access ^ 2 * a.data.length) * (c.access ^ 2 * b.data.length) := key
        _ = (c.access ^ 2 * a.data.length) * (b.access ^ 2 * b.data.length) := by ring
    exact Nat.le_of_mul_le_mul_right key2 hpos2

theorem victimFold_min (l : List (String × CacheEntry)) :
    ∀ x : String × CacheEntry, (∀ p ∈ x :: l, 1 ≤ p.2.access) →
    ∃ r, l.foldl victimStep (some x) = some r ∧ r ∈ x :: l ∧
      ∀ p ∈ x :: l, r.2.access ^ 2 * p.2.data.length
          ≤ p.2.access ^ 2 * r.2.data.length := by
  induction l with
  | nil =>
    intro x hx
    refine ⟨x, rfl, List.mem_cons_self x [], ?_⟩
    intro p hp
    rcases List.mem_cons.mp hp with rfl | h
    · exact Nat.le_refl _
    · simp at h
  | cons y l ih =>
    intro x hx
    rw [List.foldl_cons]
    by_cases hc : x.2.access ^ 2 * y.2.data.length > y.2.access ^ 2 * x.2.data.length
    · have hstep : victimStep (some x) y = some y := by
        simp [victimStep, hc]
      rw [hstep]
      obtain ⟨r, hfold, hmem, hmin⟩ := ih y (fun p hp => hx p (List.mem_cons_of_mem x hp))
      refine ⟨r, hfold, List.mem_cons_of_mem x hmem, ?_⟩
      intro p hp
      rcases List.mem_cons.mp hp with rfl | hpyl
      · have hry := hmin y (List.mem_cons_self y l)
        have hyp2 : y.2.access ^ 2 * p.2.data.length ≤ p.2.access ^ 2 * y.2.data.length :=
          Nat.le_of_lt hc
        have hyacc : 1 ≤ y.2.access :=
          hx y (List.mem_cons_of_mem p (List.mem_cons_self y l))
        exact cross_trans r.2 y.2 p.2 hyacc hry hyp2
      · exact hmin p hpyl
    · have hstep : victimStep (some x) y = some x := by
        simp [victimStep, hc]
      rw [hstep]
      have hxl : ∀ p ∈ x :: l, 1 ≤ p.2.access := by
        intro p hp
        rcases List.mem_cons.mp hp with rfl | h
        · exact hx p (List.mem_cons_self p (y :: l))
        · exact hx p (List.mem_cons_of_mem x (List.mem_cons_of_mem y h))
      obtain ⟨r, hfold, hmem, hmin⟩ := ih x hxl
      refine ⟨r, hfold, ?_, ?_⟩
      · rcases List.mem_cons.mp hmem with rfl | h
        · exact List.mem_cons_self r (y :: l)
        · exact List.mem_cons_of_mem x (List.mem_cons_of_mem y h)
      · intro p hp
        rcases List.mem_cons.mp hp with rfl | hpyl
        · exact hmin p (List.mem_cons_self p l)
        · rcases List.mem_cons.mp hpyl with rfl | hpl
          · have hrx := hmin x (List.mem_cons_self x l)
            have hxy : x.2.access ^ 2 * p.2.data.length ≤ p.2.access ^ 2 * x.2.data.length :=
              Nat.le_of_not_lt hc
            have hxacc : 1 ≤ x.2.access := hx x (List.mem_cons_self x (p :: l))
            exact cross_trans r.2 x.2 p.2 hxacc hrx hxy
          · exact hmin p (List.mem_cons_of_mem x hpl)

/-- C4: the entry chosen by the eviction scan of `ModuleCache::put` is a
member of the entry list that minimises access squared over size under the
integer cross-product comparison, for every entry list in which all access
counters are positive; and every cache state reachable by any operation
sequence has only positive access counters (entries are created with access
one and counters only grow), so the minimality applies at every moment of
eviction. -/
theorem eviction_victim_cross_minimal :
    (∀ (l : List (String × CacheEntry)) (v : String × CacheEntry),
        (∀ p ∈ l, 1 ≤ p.2.access) → l.foldl victimStep none = some v →
        v ∈ l ∧ ∀ p ∈ l, v.2.access ^ 2 * p.2.data.length
            ≤ p.2.access ^ 2 * v.2.data.length) ∧
    (∀ (cap : Nat) (ops : List CacheOp) (p : String × CacheEntry),
        p ∈ (ModuleCache.runOps (ModuleCache.new cap) ops).entries →
        1 ≤ p.2.access) := by
  constructor
  · intro l v hacc hfold
    cases l with
    | nil => simp at hfold
    | cons x l =>
      rw [List.foldl_cons] at hfold
      rw [show victimStep none x = some x from rfl] at hfold
      obtain ⟨r, hf, hmem, hmin⟩ := victimFold_min l x hacc
      rw [hf] at hfold
      injection hfold with hrv
      subst hrv
      exact ⟨hmem, hmin⟩
  · intro cap ops p hp
    exact (good_runOps ops (ModuleCache.new cap) (good_new cap)).2.2 p hp

/-- C4 witness: the minimality statement applied to the concrete two-entry
cache of the eviction scenario (k1 of size five accessed once, k2 of size
ten accessed three times): the fold selects k1, which is a member. -/
theorem eviction_victim_witness :
    (("k1", (⟨List.replicate 5 1, 1⟩ : CacheEntry)))
      ∈ ([("k1", ⟨List.replicate 5 1, 1⟩),
          ("k2", ⟨List.replicate 10 2, 3⟩)] : List (String × CacheEntry)) :=
  (eviction_victim_cross_minimal.1
    [("k1", ⟨List.replicate 5 1, 1⟩), ("k2", ⟨List.replicate 10 2, 3⟩)]
    ("k1", ⟨List.replicate 5 1, 1⟩) (by decide) (by decide)).1

theorem length_eraseE (l : List (String × CacheEntry)) (k : String) (e : CacheEntry)
    (h : lookupE l k = some e) : (eraseE l k).length + 1 = l.length := by
  induction l with
  | nil => simp [lookupE] at h
  | cons p l ih =>
    by_cases hk : p.1 = k
    · rw [eraseE, if_pos hk, List.length_cons]
    · rw [lookupE, if_neg hk] at h
      rw [eraseE, if_neg hk, List.length_cons, List.length_cons, ih h]

/-- C10: the eviction loop of `ModuleCache::put` needs at most as many
iterations as there are cache entries: any iteration budget of at least the
entry count computes the same result as the budget equal to the entry
count, because each pass either removes the selected victim entry or exits
the loop.  `put` runs the loop with exactly that budget, so the bounded
loop coincides with the unbounded Rust `while`. -/
theorem evictLoop_iterations_bounded (fuel cap size : Nat) :
    ∀ (es : List (String × CacheEntry)) (alloc : Nat), es.length ≤ fuel →
      evictLoop fuel cap size es alloc = evictLoop es.length cap size es alloc := by
  induction fuel with
  | zero =>
    intro es alloc h
    rw [Nat.le_zero.mp h]
  | succ fuel ih =>
    intro es alloc h
    cases es with
    | nil =>
      simp only [List.length_nil]
      rw [evictLoop, evictLoop]
      split <;> rfl
    | cons q es' =>
      rw [List.length_cons] at h ⊢
      rw [evictLoop, evictLoop]
      by_cases hc : cap - alloc < size
      · rw [if_pos hc, if_pos hc]
        cases hv : selectVictim (q :: es') with
        | none => simp only [hv]
        | some k =>
          cases hl : lookupE (q :: es') k with
          | none => simp only [hv, hl]
          | some e =>
            simp only [hv, hl]
            have herase : (eraseE (q :: es') k).length + 1 = (q :: es').length :=
              length_eraseE (q :: es') k e hl
            rw [List.length_cons] at herase
            rw [ih (eraseE (q :: es') k) (alloc - e.data.length) (by omega)]
            rw [show (eraseE (q :: es') k).length = es'.length from by omega]
      · rw [if_neg hc, if_neg hc]

/-- C10 witness: the iteration bound applied at a concrete two-entry state
where eviction is needed. -/
theorem evictLoop_iterations_witness :
    evictLoop 5 10 8 [("a", ⟨[0, 0, 0], 1⟩), ("b", ⟨[0, 0, 0, 0], 1⟩)] 7
      = evictLoop
          ([("a", (⟨[0, 0, 0], 1⟩ : CacheEntry)),
            ("b", ⟨[0, 0, 0, 0], 1⟩)] : List (String × CacheEntry)).length
          10 8 [("a", ⟨[0, 0, 0], 1⟩), ("b", ⟨[0, 0, 0, 0], 1⟩)] 7 :=
  evictLoop_iterations_bounded 5 10 8
    [("a", ⟨[0, 0, 0], 1⟩), ("b", ⟨[0, 0, 0, 0], 1⟩)] 7 (by decide)

/-- C9 amended: for an existing slot, a write past the slot end grows the
slot to offset plus data length, counting the growth against the capacity;
it fails with `CacheFull` and leaves the cache unchanged exactly when the
grown allocation would exceed the capacity. -/
theorem put_slice_overflow_behaviour (c : ModuleCache) (k : String) (offset : Nat)
    (data : List Nat) (e : CacheEntry)
    (hfind : lookupE c.entries k = some e)
    (hover : e.data.length < offset + data.length) :
    (c.capacity < c.allocated + (offset + data.length - e.data.length) →
      (c.put_slice k offset data).1
          = Except.error (PgError.cacheFull c.allocated c.capacity) ∧
      (c.put_slice k offset data).2 = c) ∧
    (c.allocated + (offset + data.length - e.data.length) ≤ c.capacity →
      (c.put_slice k offset data).1 = Except.ok data.length ∧
      ∃ e2, lookupE (c.put_slice k offset data).2.entries k = some e2 ∧
        e2.data.length = offset + data.length) := by
  unfold ModuleCache.put_slice
  simp only [hfind]
  rw [if_pos hover]
  constructor
  · intro hcap
    rw [if_pos hcap]
    exact ⟨rfl, rfl⟩
  · intro hcap
    rw [if_neg (by omega)]
    refine ⟨rfl, ?_⟩
    dsimp only
    rw [lookupE_updateE, hfind]
    refine ⟨_, rfl, ?_⟩
    dsimp only
    rw [writeAt_length _ _ _ (by rw [growTo_length _ _ (Nat.le_of_lt hover)]),
      growTo_length _ _ (Nat.le_of_lt hover)]

/-- C9 witness: the amended behaviour at the concrete reachable cache c9
(slot k of two bytes, capacity ten): an eleven-byte write would need nine
extra bytes and exceed the capacity, so it fails with CacheFull and leaves
the cache unchanged. -/
theorem put_slice_overflow_witness :
    (c9.put_slice "k" 0 [1, 2, 3, 4, 5, 6, 7, 8, 9, 10, 11]).1
        = Except.error (PgError.cacheFull 2 10) ∧
    (c9.put_slice "k" 0 [1, 2, 3, 4, 5, 6, 7, 8, 9, 10, 11]).2 = c9 :=
  (put_slice_overflow_behaviour c9 "k" 0 [1, 2, 3, 4, 5, 6, 7, 8, 9, 10, 11]
    ⟨[0, 0], 1⟩ (by decide) (by decide)).1 (by decide)

end Program

namespace Server

theorem revRamFold_spec (l : List DeviceRecord) :
    ∀ x : DeviceRecord,
      ∃ r, List.foldl (fun acc y =>
          match acc with
          | none => some y
          | some x => if y.ram > x.ram then some x else some y) (some x) l = some r ∧
        r ∈ x :: l ∧ ∀ d ∈ x :: l, r.ram ≤ d.ram := by
  induction l with
  | nil =>
    intro x
    refine ⟨x, rfl, List.mem_cons_self x [], ?_⟩
    intro d hd
    rcases List.mem_cons.mp hd with rfl | h
    · exact Nat.le_refl _
    · simp at h
  | cons y l ih =>
    intro x
    rw [List.foldl_cons]
    by_cases hc : y.ram > x.ram
    · dsimp only
      rw [if_pos hc]
      obtain ⟨r, hf, hmem, hmin⟩ := ih x
      refine ⟨r, hf, ?_, ?_⟩
      · rcases List.mem_cons.mp hmem with rfl | h
        · exact List.mem_cons_self r (y :: l)
        · exact List.mem_cons_of_mem x (List.mem_cons_of_mem y h)
      · intro d hd
        rcases List.mem_cons.mp hd with rfl | hd2
        · exact hmin d (List.mem_cons_self d l)
        · rcases List.mem_cons.mp hd2 with rfl | hd3
          · exact Nat.le_trans (hmin x (List.mem_cons_self x l)) (Nat.le_of_lt hc)
          · exact hmin d (List.mem_cons_of_mem x hd3)
    · dsimp only
      rw [if_neg hc]
      obtain ⟨r, hf, hmem, hmin⟩ := ih y
      refine ⟨r, hf, ?_, ?_⟩
      · rcases List.mem_cons.mp hmem with rfl | h
        · exact List.mem_cons_of_mem x (List.mem_cons_self r l)
        · exact List.mem_cons_of_mem x (List.mem_cons_of_mem y h)
      · intro d hd
        rcases List.mem_cons.mp hd with rfl | hd2
        · exact Nat.le_trans (hmin y (List.mem_cons_self y l)) (Nat.le_of_not_lt hc)
        · exact hmin d hd2

theorem ramFold_spec (l : List DeviceRecord) :
    ∀ x : DeviceRecord,
      ∃ r, List.foldl (fun acc y =>
          match acc with
          | none => some y
          | some x => if x.ram > y.ram then some x else some y) (some x) l = some r ∧
        r ∈ x :: l ∧ ∀ d ∈ x :: l, d.ram ≤ r.ram := by
  induction l with
  | nil =>
    intro x
    refine ⟨x, rfl, List.mem_cons_self x [], ?_⟩
    intro d hd
    rcases List.mem_cons.mp hd with rfl | h
    · exact Nat.le_refl _
    · simp at h
  | cons y l ih =>
    intro x
    rw [List.foldl_cons]
    by_cases hc : x.ram > y.ram
    · dsimp only
      rw [if_pos hc]
      obtain ⟨r, hf, hmem, hmin⟩ := ih x
      refine ⟨r, hf, ?_, ?_⟩
      · rcases List.mem_cons.mp hmem with rfl | h
        · exact List.mem_cons_self r (y :: l)
        · exact List.mem_cons_of_mem x (List.mem_cons_of_mem y h)
      · intro d hd
        rcases List.mem_cons.mp hd with rfl | hd2
        · exact hmin d (List.mem_cons_self d l)
        · rcases List.mem_cons.mp hd2 with rfl | hd3
          · exact Nat.le_trans (Nat.le_of_lt hc) (hmin x (List.mem_cons_self x l))
          · exact hmin d (List.mem_cons_of_mem x hd3)
    · dsimp only
      rw [if_neg hc]
      obtain ⟨r, hf, hmem, hmin⟩ := ih y
      refine ⟨r, hf, ?_, ?_⟩
      · rcases List.mem_cons.mp hmem with rfl | h
        · exact List.mem_cons_of_mem x (List.mem_cons_self r l)
        · exact List.mem_cons_of_mem x (List.mem_cons_of_mem y h)
      · intro d hd
        rcases List.mem_cons.mp hd with rfl | hd2
        · exact Nat.le_trans (Nat.le_of_not_lt hc) (hmin y (List.mem_cons_self y l))
        · exact hmin d hd2

theorem maxByRevRam_spec (l : List DeviceRecord) (d : DeviceRecord)
    (h : maxByRevRam l = some d) : d ∈ l ∧ ∀ d2 ∈ l, d.ram ≤ d2.ram := by
  cases l with
  | nil => simp [maxByRevRam] at h
  | cons x t =>
    rw [maxByRevRam, List.foldl_cons] at h
    obtain ⟨r, hf, hmem, hmin⟩ := revRamFold_spec t x
    rw [hf] at h
    injection h with hrd
    subst hrd
    exact ⟨hmem, hmin⟩

theorem maxByRam_spec (l : List DeviceRecord) (d : DeviceRecord)
    (h : maxByRam l = some d) : d ∈ l ∧ ∀ d2 ∈ l, d2.ram ≤ d.ram := by
  cases l with
  | nil => simp [maxByRam] at h
  | cons x t =>
    rw [maxByRam, List.foldl_cons] at h
    obtain ⟨r, hf, hmem, hmin⟩ := ramFold_spec t x
    rw [hf] at h
    injection h with hrd
    subst hrd
    exact ⟨hmem, hmin⟩

/-- C6 amended: among the sufficient-RAM candidates that cache the task
module, the selection picks the one with the SMALLEST RAM (ties broken
toward the later candidate in iteration order) and assigns its entity; only
when no sufficient-RAM candidate caches the module does it pick the
candidate with the largest RAM overall. -/
theorem select_prefers_smallest_cached (devices : List DeviceRecord) (me req : Nat) :
    (∀ d : DeviceRecord, maxByRevRam (cachedOf devices me req) = some d →
        d ∈ cachedOf devices me req ∧
        (∀ d2 ∈ cachedOf devices me req, d.ram ≤ d2.ram) ∧
        selectTargetDevice devices me req = some d.entity) ∧
    (maxByRevRam (cachedOf devices me req) = none →
      ∀ d : DeviceRecord, maxByRam (suitableOf devices req) = some d →
        d ∈ suitableOf devices req ∧
        (∀ d2 ∈ suitableOf devices req, d2.ram ≤ d.ram) ∧
        selectTargetDevice devices me req = some d.entity) := by
  constructor
  · intro d hd
    obtain ⟨hmem, hmin⟩ := maxByRevRam_spec _ d hd
    refine ⟨hmem, hmin, ?_⟩
    rw [selectTargetDevice, hd]
  · intro hnone d hd
    obtain ⟨hmem, hmin⟩ := maxByRam_spec _ d hd
    refine ⟨hmem, hmin, ?_⟩
    rw [selectTargetDevice, hnone, hd]
    rfl

/-- C6 witness: the amended selection applied to two cached sufficient-RAM
candidates of RAM 3000 and 2500: the chosen device is the 2500 one, a
member of the cached candidate set. -/
theorem select_prefers_smallest_cached_witness :
    (⟨2, [7], 2500⟩ : DeviceRecord)
      ∈ cachedOf [⟨1, [7], 3000⟩, ⟨2, [7], 2500⟩] 7 2100 :=
  ((select_prefers_smallest_cached [⟨1, [7], 3000⟩, ⟨2, [7], 2500⟩] 7 2100).1
    ⟨2, [7], 2500⟩ (by decide)).1

end Server

namespace Program

theorem chunkExpected_sum (size S N : Nat) (hN : 1 ≤ N) (hsz : S * (N - 1) ≤ size) :
    ((List.range N).map (chunkExpected size S N)).sum = size := by
  obtain ⟨M, rfl⟩ : ∃ M, N = M + 1 := ⟨N - 1, by omega⟩
  rw [List.range_succ, List.map_append, List.sum_append]
  have hM : M + 1 - 1 = M := rfl
  have hconst : (List.range M).map (chunkExpected size S (M + 1))
      = (List.range M).map (fun _ => S) := by
    apply List.map_congr_left
    intro i hi
    have : i < M := List.mem_range.mp hi
    rw [chunkExpected, hM, if_neg (by omega)]
  rw [hconst, List.map_const', List.sum_replicate, List.length_range,
    List.map_singleton, List.sum_singleton, chunkExpected, hM, if_pos rfl]
  have hcomm : S * M = M * S := Nat.mul_comm S M
  rw [hM] at hsz
  rw [smul_eq_mul]
  omega

theorem blocksOf_length (size S N : Nat) (chunks : Nat → List Nat) (ds : List Nat) :
    (blocksOf size S N chunks ds).length = N := by
  simp [blocksOf]

theorem blocksOf_get (size S N : Nat) (chunks : Nat → List Nat) (ds : List Nat)
    (i : Nat) (hi : i < N) :
    (blocksOf size S N chunks ds).get ⟨i, by rw [blocksOf_length]; exact hi⟩
      = if i ∈ ds then chunks i else List.replicate (chunkExpected size S N i) 0 := by
  simp [blocksOf]

end Program

namespace Program

theorem blocksOf_map_length (size S N : Nat) (chunks : Nat → List Nat) (ds : List Nat)
    (hchunks : ∀ i, i < N → (chunks i).length = chunkExpected size S N i) :
    (blocksOf size S N chunks ds).map List.length
      = (List.range N).map (chunkExpected size S N) := by
  rw [blocksOf, List.map_map]
  apply List.map_congr_left
  intro i hi
  have hiN : i < N := List.mem_range.mp hi
  by_cases hd : i ∈ ds
  · simp [hd, hchunks i hiN]
  · simp [hd]

theorem blocksOf_flatten_length (size S N : Nat) (chunks : Nat → List Nat)
    (ds : List Nat) (hN : 1 ≤ N) (hsz : S * (N - 1) ≤ size)
    (hchunks : ∀ i, i < N → (chunks i).length = chunkExpected size S N i) :
    (blocksOf size S N chunks ds).flatten.length = size := by
  rw [List.length_flatten, blocksOf_map_length size S N chunks ds hchunks,
    chunkExpected_sum size S N hN hsz]

theorem blocksOf_take_sum (size S N : Nat) (chunks : Nat → List Nat) (ds : List Nat)
    (j : Nat) (hj : j < N)
    (hchunks : ∀ i, i < N → (chunks i).length = chunkExpected size S N i) :
    (((blocksOf size S N chunks ds).take j).map List.length).sum = j * S := by
  rw [List.map_take, blocksOf_map_length size S N chunks ds hchunks,
    ← List.map_take, List.take_range]
  have hmin : min j N = j := Nat.min_eq_left (Nat.le_of_lt hj)
  rw [hmin]
  have hconst : (List.range j).map (chunkExpected size S N)
      = (List.range j).map (fun _ => S) := by
    apply List.map_congr_left
    intro i hi
    have hij : i < j := List.mem_range.mp hi
    rw [chunkExpected, if_neg (by omega)]
  rw [hconst, List.map_const', List.sum_replicate, List.length_range, smul_eq_mul]

theorem writeAt_flatten (bs : List (List Nat)) :
    ∀ (j : Nat) (d : List Nat) (hj : j < bs.length),
      d.length = (bs.get ⟨j, hj⟩).length →
      writeAt bs.flatten (((bs.take j).map List.length).sum) d = (bs.set j d).flatten := by
  induction bs with
  | nil =>
    intro j d hj
    simp at hj
  | cons b bs ih =>
    intro j d hj hd
    cases j with
    | zero =>
      have hb : b.length = d.length := by
        simp [hd]
      rw [List.take_zero, List.map_nil, List.sum_nil, List.set_cons_zero,
        List.flatten_cons, List.flatten_cons, writeAt, List.take_zero, Nat.zero_add,
        List.nil_append, List.drop_left' hb]
    | succ j =>
      have hj2 : j < bs.length := by
        simpa using hj
      have hd2 : d.length = (bs.get ⟨j, hj2⟩).length := hd
      rw [List.take_succ_cons, List.map_cons, List.sum_cons, List.set_cons_succ,
        List.flatten_cons, List.flatten_cons, writeAt, List.take_append,
        Nat.add_assoc, List.drop_append, ← ih j d hj2 hd2, writeAt]
      simp [List.append_assoc]

end Program

namespace Program

theorem mark_nil (N : Nat) : mark N [] = List.replicate N false := by
  simp [mark]

theorem mark_length (N : Nat) (ds : List Nat) : (mark N ds).length = N := by
  simp [mark]

theorem mark_getD (N : Nat) (ds : List Nat) (j : Nat) (hj : j < N) :
    (mark N ds).getD j false = decide (j ∈ ds) := by
  rw [mark, List.getD_eq_getElem?_getD, List.getElem?_map, List.getElem?_range hj]
  rfl

theorem mark_set (N : Nat) (ds : List Nat) (j : Nat) (hj : j < N) :
    (mark N ds).set j true = mark N (ds ++ [j]) := by
  apply List.ext_getElem
  · simp [mark]
  · intro i h1 h2
    have hiN : i < N := by
      simpa [mark] using h2
    rw [List.getElem_set]
    by_cases hij : j = i
    · rw [if_pos hij]
      simp only [mark, List.getElem_map, List.getElem_range]
      subst hij
      simp
    · rw [if_neg hij]
      simp only [mark, List.getElem_map, List.getElem_range]
      have hiff : i ∈ ds ++ [j] ↔ i ∈ ds := by
        simp only [List.mem_append, List.mem_singleton]
        constructor
        · intro h
          rcases h with h | h
          · exact h
          · exact absurd h.symm hij
        · exact fun h => Or.inl h
      simp [hiff]

theorem mark_all_true (N : Nat) (ds : List Nat) (h : ∀ i, i < N → i ∈ ds) :
    (mark N ds).all id = true := by
  rw [List.all_eq_true]
  intro b hb
  rw [mark] at hb
  obtain ⟨i, hi, rfl⟩ := List.mem_map.mp hb
  have : i < N := List.mem_range.mp hi
  simp [h i this]

theorem mark_all_false (N : Nat) (ds : List Nat) (j : Nat) (hj : j < N)
    (hnot : j ∉ ds) : (mark N ds).all id = false := by
  cases hall : (mark N ds).all id with
  | false => rfl
  | true =>
    have hmem : decide (j ∈ ds) ∈ mark N ds := by
      rw [mark]
      exact List.mem_map.mpr ⟨j, List.mem_range.mpr hj, rfl⟩
    have := List.all_eq_true.mp hall _ hmem
    simp [hnot] at this

theorem blocksOf_set (size S N : Nat) (chunks : Nat → List Nat) (ds : List Nat)
    (j : Nat) (hj : j < N) (hnot : j ∉ ds) :
    (blocksOf size S N chunks ds).set j (chunks j)
      = blocksOf size S N chunks (ds ++ [j]) := by
  apply List.ext_getElem
  · simp [blocksOf]
  · intro i h1 h2
    have hiN : i < N := by
      simpa [blocksOf] using h2
    rw [List.getElem_set]
    by_cases hij : j = i
    · rw [if_pos hij]
      simp only [blocksOf, List.getElem_map, List.getElem_range]
      subst hij
      simp
    · rw [if_neg hij]
      simp only [blocksOf, List.getElem_map, List.getElem_range]
      have hiff : i ∈ ds ++ [j] ↔ i ∈ ds := by
        simp only [List.mem_append, List.mem_singleton]
        constructor
        · intro h
          rcases h with h | h
          · exact h
          · exact absurd h.symm hij
        · exact fun h => Or.inl h
      simp [hiff]

theorem flatten_replicate_zero (ls : List Nat) :
    ((ls.map (fun n => List.replicate n 0)).flatten : List Nat)
      = List.replicate ls.sum 0 := by
  induction ls with
  | nil => rfl
  | cons n ls ih =>
    rw [List.map_cons, List.flatten_cons, ih, List.sum_cons, List.replicate_add]

theorem blocksOf_nil_flatten (size S N : Nat) (chunks : Nat → List Nat)
    (hN : 1 ≤ N) (hsz : S * (N - 1) ≤ size) :
    (blocksOf size S N chunks []).flatten = List.replicate size 0 := by
  have : blocksOf size S N chunks []
      = ((List.range N).map (chunkExpected size S N)).map (fun n => List.replicate n 0) := by
    rw [blocksOf, List.map_map]
    apply List.map_congr_left
    intro i hi
    simp
  rw [this, flatten_replicate_zero, chunkExpected_sum size S N hN hsz]

theorem blocksOf_full_flatten (size S N : Nat) (chunks : Nat → List Nat)
    (ds : List Nat) (h : ∀ i, i < N → i ∈ ds) :
    (blocksOf size S N chunks ds).flatten = ((List.range N).map chunks).flatten := by
  have : blocksOf size S N chunks ds = (List.range N).map chunks := by
    rw [blocksOf]
    apply List.map_congr_left
    intro i hi
    rw [if_pos (h i (List.mem_range.mp hi))]
  rw [this]

end Program

namespace Program

theorem runChunks_inv (name : String) (size S N : Nat) (chunks : Nat → List Nat)
    (hN : 1 ≤ N) (hsz : S * (N - 1) ≤ size)
    (hchunks : ∀ i, i < N → (chunks i).length = chunkExpected size S N i) :
    ∀ (todo ds : List Nat) (c : ModuleCache) (acc : Nat),
      (ds ++ todo).Nodup → (∀ i ∈ ds ++ todo, i < N) →
      lookupE c.entries name = some ⟨(blocksOf size S N chunks ds).flatten, acc⟩ →
      ∃ c2 acc2,
        runChunks ⟨name, size, S, N, mark N ds⟩ c (todo.map (fun i => (i, chunks i)))
            = some (⟨name, size, S, N, mark N (ds ++ todo)⟩, c2) ∧
        lookupE c2.entries name
            = some ⟨(blocksOf size S N chunks (ds ++ todo)).flatten, acc2⟩ := by
  intro todo
  induction todo with
  | nil =>
    intro ds c acc hnodup hlt hslot
    refine ⟨c, acc, ?_, ?_⟩
    · rw [List.map_nil, runChunks, List.append_nil]
    · rw [List.append_nil]
      exact hslot
  | cons j todo ih =>
    intro ds c acc hnodup hlt hslot
    have hjN : j < N := hlt j (List.mem_append_right ds (List.mem_cons_self j todo))
    have hdisj : ds.Disjoint (j :: todo) := (List.nodup_append.mp hnodup).2.2
    have hjds : j ∉ ds := fun hmem => hdisj hmem (List.mem_cons_self j todo)
    have hflen : (blocksOf size S N chunks ds).flatten.length = size :=
      blocksOf_flatten_length size S N chunks ds hN hsz hchunks
    have hclen : (chunks j).length = chunkExpected size S N j := hchunks j hjN
    have hend : j * S + (chunks j).length ≤ size := by
      rw [hclen, chunkExpected]
      by_cases hlast : j = N - 1
      · rw [if_pos hlast, hlast]
        have hcomm : S * (N - 1) = (N - 1) * S := Nat.mul_comm _ _
        omega
      · rw [if_neg hlast]
        have hj1 : j + 1 ≤ N - 1 := by omega
        have hmul : (j + 1) * S ≤ (N - 1) * S := Nat.mul_le_mul_right S hj1
        have hcomm : S * (N - 1) = (N - 1) * S := Nat.mul_comm _ _
        have hsm : (j + 1) * S = j * S + S := Nat.succ_mul j S
        omega
    have hgd : (mark N ds).getD j false = false := by
      rw [mark_getD N ds j hjN]
      exact decide_eq_false hjds
    set c1 : ModuleCache := { c with entries := updateE (fun e0 => ⟨writeAt e0.data (j * S) (chunks j), e0.access + 1⟩) c.entries name } with hc1
    have hps : c.put_slice name (j * S) (chunks j)
        = (Except.ok (chunks j).length, c1) := by
      unfold ModuleCache.put_slice
      simp only [hslot]
      rw [if_neg (by omega), hc1]
    have hadd : ModuleTransfer.add_chunk ⟨name, size, S, N, mark N ds⟩ c j (chunks j)
        = (Except.ok (), ⟨name, size, S, N, mark N (ds ++ [j])⟩, c1) := by
      unfold ModuleTransfer.add_chunk
      dsimp only
      rw [if_neg (by omega : ¬ N ≤ j), hgd]
      simp only [Bool.false_eq_true, if_false]
      rw [if_pos hclen, hps]
      dsimp only
      rw [mark_set N ds j hjN]
    have hwrite : writeAt (blocksOf size S N chunks ds).flatten (j * S) (chunks j)
        = (blocksOf size S N chunks (ds ++ [j])).flatten := by
      have hj2 : j < (blocksOf size S N chunks ds).length := by
        rw [blocksOf_length]
        exact hjN
      have hd2 : (chunks j).length
          = ((blocksOf size S N chunks ds).get ⟨j, hj2⟩).length := by
        rw [blocksOf_get size S N chunks ds j hjN, if_neg hjds,
          List.length_replicate, hclen]
      have hoff := blocksOf_take_sum size S N chunks ds j hjN hchunks
      rw [← hoff, writeAt_flatten (blocksOf size S N chunks ds) j (chunks j) hj2 hd2,
        blocksOf_set size S N chunks ds j hjN hjds]
    have hlook2 : lookupE c1.entries name
        = some ⟨(blocksOf size S N chunks (ds ++ [j])).flatten, acc + 1⟩ := by
      rw [hc1]
      dsimp only
      rw [lookupE_updateE, hslot]
      dsimp only [Option.map]
      rw [hwrite]
    have hassoc : ds ++ j :: todo = (ds ++ [j]) ++ todo := by
      rw [List.append_assoc]
      rfl
    obtain ⟨c2, acc2, hrun, hslot2⟩ := ih (ds ++ [j]) c1 (acc + 1)
      (by rw [← hassoc]; exact hnodup)
      (by rw [← hassoc]; exact hlt)
      hlook2
    refine ⟨c2, acc2, ?_, ?_⟩
    · rw [List.map_cons, runChunks, hadd]
      dsimp only
      rw [hrun, hassoc]
    · rw [hassoc]
      exact hslot2

end Program

namespace Program

/-- C5: for every module descriptor (at least one chunk, chunk sizes
covering the declared size), every assignment of correctly sized chunk
contents and every permutation of the chunk indices, feeding the chunks to
the assembler succeeds on each call, reports completion exactly after the
last chunk and not before, and leaves the cache slot holding the
concatenation of the chunks in index order, the same bytes as in-order
delivery. -/
theorem assembler_order_independent (meta : ModuleInfo) (chunks : Nat → List Nat)
    (perm : List Nat) (c0 : ModuleCache) (a : Nat)
    (hN : 1 ≤ meta.total_chunks)
    (hsz : meta.chunk_size * (meta.total_chunks - 1) ≤ meta.size)
    (hchunks : ∀ i, i < meta.total_chunks →
      (chunks i).length = chunkExpected meta.size meta.chunk_size meta.total_chunks i)
    (hperm : perm.Perm (List.range meta.total_chunks))
    (hslot : lookupE c0.entries meta.name = some ⟨List.replicate meta.size 0, a⟩) :
    runLookup (ModuleTransfer.new meta) c0 (perm.map (fun i => (i, chunks i))) meta.name
        = some (true, some ((List.range meta.total_chunks).map chunks).flatten) ∧
    (∀ pre suf, perm = pre ++ suf → suf ≠ [] →
      (runChunks (ModuleTransfer.new meta) c0 (pre.map (fun i => (i, chunks i)))).map
          (fun p => p.1.is_complete) = some false) := by
  obtain ⟨name, size, S, N⟩ := meta
  dsimp only at hN hsz hchunks hperm hslot ⊢
  have hmemperm : ∀ i ∈ perm, i < N := fun i hi => List.mem_range.mp (hperm.mem_iff.mp hi)
  have hnodup : perm.Nodup := (hperm.nodup_iff).mpr (List.nodup_range N)
  have hcover : ∀ i, i < N → i ∈ perm := fun i hi => hperm.mem_iff.mpr (List.mem_range.mpr hi)
  have hnew : ModuleTransfer.new ⟨name, size, S, N⟩
      = (⟨name, size, S, N, mark N []⟩ : ModuleTransfer) := by
    rw [ModuleTransfer.new, mark_nil]
  have hinit : lookupE c0.entries name = some ⟨(blocksOf size S N chunks []).flatten, a⟩ := by
    rw [blocksOf_nil_flatten size S N chunks hN hsz]
    exact hslot
  constructor
  · obtain ⟨c2, acc2, hrun, hslot2⟩ := runChunks_inv name size S N chunks hN hsz hchunks
      perm [] c0 a (by simpa using hnodup) (by simpa using hmemperm) hinit
    rw [List.nil_append] at hrun hslot2
    rw [runLookup, hnew, hrun]
    simp only [Option.map, ModuleTransfer.is_complete, hslot2]
    rw [mark_all_true N perm hcover,
      blocksOf_full_flatten size S N chunks perm hcover]
  · intro pre suf hsplit hsuf
    obtain ⟨j, suf2, rfl⟩ : ∃ j suf2, suf = j :: suf2 := by
      cases suf with
      | nil => exact absurd rfl hsuf
      | cons j s => exact ⟨j, s, rfl⟩
    subst hsplit
    have hsplitdup := List.nodup_append.mp hnodup
    have hpre_nodup : pre.Nodup := hsplitdup.1
    have hpre_mem : ∀ i ∈ pre, i < N := fun i hi =>
      hmemperm i (List.mem_append_left _ hi)
    have hjN : j < N :=
      hmemperm j (List.mem_append_right pre (List.mem_cons_self j suf2))
    have hjpre : j ∉ pre := fun hmem =>
      hsplitdup.2.2 hmem (List.mem_cons_self j suf2)
    obtain ⟨cm, accm, hrunp, hslotp⟩ := runChunks_inv name size S N chunks hN hsz hchunks
      pre [] c0 a (by simpa using hpre_nodup) (by simpa using hpre_mem) hinit
    rw [List.nil_append] at hrunp hslotp
    rw [hnew, hrunp]
    simp only [Option.map, ModuleTransfer.is_complete]
    rw [mark_all_false N pre j hjN hjpre]

/-- C5 witness: the order-independence statement applied to a concrete
three-chunk descriptor (sizes two, two, one over a five-byte module) with
the chunks delivered in the order two, zero, one: the run succeeds,
finishes complete, and the slot holds the in-order concatenation. -/
theorem assembler_order_independent_witness :
    runLookup (ModuleTransfer.new meta5) c5init
        ([2, 0, 1].map (fun i => (i, chunks5 i))) meta5.name
      = some (true, some ((List.range meta5.total_chunks).map chunks5).flatten) :=
  (assembler_order_independent meta5 chunks5 [2, 0, 1] c5init 1 (by decide) (by decide)
    (by decide) (by decide) (by decide)).1

end Program
